import Mathlib

/-!
Shallow embedding of the sudoku solver from `src/main.rs` (gnuvince/sudoku-rs).

The Rust program represents a board as 81 candidate sets (bitsets over the
digits 1..9, stored in `u32`s) and solves by fixed-point constraint
propagation plus most-constrained-cell backtracking.  Machine integers are
modelled as `Nat`; the only place 32-bit semantics matters is the `!`
(bitwise complement) applied to a neighbour mask, which is modelled as XOR
with the 32-bit all-ones mask (`u32not`), exactly the value `!x` has for
`x < 2^32`.
-/

namespace Sudoku

/-- `NSQRT` from the source: the box side length. -/
def NSQRT : Nat := 3

/-- `N` from the source: the grid side length. -/
def N : Nat := NSQRT * NSQRT

/-- `NSQ` from the source: the number of cells. -/
def NSQ : Nat := N * N

/-- `row` from the source: 0-based row index of `cell`. -/
def row (cell : Nat) : Nat := cell / N

/-- `col` from the source: 0-based column index of `cell`. -/
def col (cell : Nat) : Nat := cell % N

/-- `group` from the source: index of the upper-left cell of `cell`'s box. -/
def group (cell : Nat) : Nat :=
  (N * (row cell - row cell % NSQRT)) + (col cell - col cell % NSQRT)

/-- The row portion of the neighbour candidates inserted by `neighbors_of`:
`N * row(cell) + i` for `i in 0..N`. -/
def rowNeighborList (cell : Nat) : List Nat :=
  (List.range N).map (fun i => N * row cell + i)

/-- The column portion of the neighbour candidates inserted by `neighbors_of`:
`N * i + col(cell)` for `i in 0..N`. -/
def colNeighborList (cell : Nat) : List Nat :=
  (List.range N).map (fun i => N * i + col cell)

/-- The box portion of the neighbour candidates inserted by `neighbors_of`:
`N * r + c` for `r in row(leader)..row(leader)+NSQRT`,
`c in col(leader)..col(leader)+NSQRT`, where `leader = group cell`. -/
def groupNeighborList (cell : Nat) : List Nat :=
  (List.range NSQRT).flatMap (fun dr =>
    (List.range NSQRT).map (fun dc =>
      N * (row (group cell) + dr) + (col (group cell) + dc)))

/-- All indices inserted into the `BTreeSet` by `neighbors_of`. -/
def neighborCandidates (cell : Nat) : List Nat :=
  rowNeighborList cell ++ colNeighborList cell ++ groupNeighborList cell

/-- `neighbors_of` from the source.  The Rust function inserts the row,
column and box indices into a `BTreeSet`, removes `cell`, and iterates the
set in ascending order; the resulting list is exactly the ascending list of
distinct inserted indices different from `cell`, which is what filtering
`List.range NSQ` produces (every inserted index is `< NSQ`). -/
def neighbors_of (cell : Nat) : List Nat :=
  (List.range NSQ).filter (fun j => decide (j ∈ neighborCandidates cell ∧ j ≠ cell))

/-- `EMPTY_SET` from the source. -/
def EMPTY_SET : Nat := 0

/-- `FULL_SET` from the source: the 9 low bits. -/
def FULL_SET : Nat := 0x1FF

/-- Structural helper for `popcount`: `fuel` bounds the recursion depth;
any `fuel ≥ n` computes the binary digit sum of `n` (see
`popcountAux_congr`). -/
def popcountAux : Nat → Nat → Nat
  | 0, _ => 0
  | fuel + 1, n => if n = 0 then 0 else n % 2 + popcountAux fuel (n / 2)

/-- `u32::count_ones`: the number of set bits of `n`. -/
def popcount (n : Nat) : Nat := popcountAux n n

/-- The 32-bit all-ones value. -/
def U32_MASK : Nat := 2 ^ 32 - 1

/-- Rust `!x` on a `u32` (for `x < 2^32`): XOR with the all-ones mask. -/
def u32not (x : Nat) : Nat := U32_MASK ^^^ x

/-- A board is the vector of 81 candidate sets (`SudokuBoard::cells`).  The
`neighbors` field of the Rust struct is always exactly
`(List.range NSQ).map neighbors_of`, so it is not duplicated here; every
use of `self.neighbors[cell]` is modelled as `neighbors_of cell`. -/
abbrev Board := List Nat

/-- `self.cells[cell]` (indexing; all accesses in the source are in
bounds, out-of-range access is given the junk value 0). -/
def cellAt (cells : Board) (i : Nat) : Nat := cells.getD i 0

/-- `cell_solved` from the source. -/
def cell_solved (cells : Board) (i : Nat) : Bool := popcount (cellAt cells i) == 1

/-- `cell_solvable` from the source. -/
def cell_solvable (cells : Board) (i : Nat) : Bool := cellAt cells i != 0

/-- `solved` from the source. -/
def solved (cells : Board) : Bool := (List.range NSQ).all (cell_solved cells)

/-- `solvable` from the source. -/
def solvable (cells : Board) : Bool := (List.range NSQ).all (cell_solvable cells)

/-- `non_candidates` from the source: fold bitwise-or of
`cells[n] * (cell_solved(n) as u32)` over the neighbours of `cell`. -/
def non_candidates (cells : Board) (i : Nat) : Nat :=
  (neighbors_of i).foldl
    (fun acc n => acc ||| cellAt cells n * (if cell_solved cells n then 1 else 0))
    EMPTY_SET

/-- One iteration of the inner `for i in 0..NSQ` loop of `propagate`:
`output.cells[i] = output.cells[i] & !output.non_candidates(i)`. -/
def passStep (cells : Board) (i : Nat) : Board :=
  cells.set i (cellAt cells i &&& u32not (non_candidates cells i))

/-- One full pass of `propagate`'s inner loop over all 81 cells, updating
in place (later cells see the earlier updates of the same pass). -/
def pass (cells : Board) : Board := (List.range NSQ).foldl passStep cells

/-- Total of all candidate-set values; the termination measure for the
fixed-point loop (each changing pass strictly shrinks some cell's bitset,
hence its numeric value). -/
def totalVal (cells : Board) : Nat := ∑ i ∈ Finset.range NSQ, cellAt cells i

/-- `x` is a sub-bitset of `y`. -/
def Submask (x y : Nat) : Prop := x &&& y = x

theorem submask_iff_testBit {x y : Nat} :
    Submask x y ↔ ∀ i, x.testBit i = true → y.testBit i = true := by
  constructor
  · intro h i hx
    have h' := congrArg (fun z => Nat.testBit z i) h
    simp only [Nat.testBit_land] at h'
    rw [hx] at h'
    cases hy : y.testBit i
    · rw [hy] at h'; simp at h'
    · rfl
  · intro h
    apply Nat.eq_of_testBit_eq
    intro i
    rw [Nat.testBit_land]
    cases hx : x.testBit i
    · simp
    · simp [h i hx]

theorem submask_refl (x : Nat) : Submask x x := Nat.and_self x

theorem submask_trans {x y z : Nat} (h₁ : Submask x y) (h₂ : Submask y z) :
    Submask x z := by
  rw [submask_iff_testBit] at h₁ h₂ ⊢
  exact fun i hi => h₂ i (h₁ i hi)

theorem submask_land_left (x y : Nat) : Submask (x &&& y) x := by
  rw [submask_iff_testBit]
  intro i hi
  rw [Nat.testBit_land] at hi
  exact (Bool.and_eq_true _ _ |>.mp hi).1

theorem submask_le {x y : Nat} (h : Submask x y) : x ≤ y := by
  calc x = x &&& y := h.symm
    _ ≤ y := Nat.and_le_right

theorem submask_lor_left {x a b : Nat} (h : Submask x a) : Submask x (a ||| b) := by
  rw [submask_iff_testBit] at h ⊢
  intro i hi
  rw [Nat.testBit_lor, h i hi, Bool.true_or]

theorem submask_lor_right {x a b : Nat} (h : Submask x b) : Submask x (a ||| b) := by
  rw [submask_iff_testBit] at h ⊢
  intro i hi
  rw [Nat.testBit_lor, h i hi, Bool.or_true]

theorem submask_antisymm {x y : Nat} (h₁ : Submask x y) (h₂ : Submask y x) : x = y := by
  calc x = x &&& y := h₁.symm
    _ = y &&& x := Nat.land_comm x y
    _ = y := h₂

/-- `cellAt` after a `List.set`, in all cases. -/
theorem cellAt_set (cells : Board) (i j v : Nat) :
    cellAt (cells.set i v) j =
      if i = j then (if i < cells.length then v else cellAt cells j)
      else cellAt cells j := by
  simp only [cellAt, List.getD_eq_getElem?_getD, List.getElem?_set]
  by_cases hij : i = j
  · subst hij
    by_cases hlen : i < cells.length
    · simp [hlen]
    · simp only [if_pos rfl, if_neg hlen, Option.getD_none]
      rw [List.getElem?_eq_none (by omega)]
      rfl
  · simp [hij]

theorem cellAt_set_ne (cells : Board) {i j : Nat} (v : Nat) (h : i ≠ j) :
    cellAt (cells.set i v) j = cellAt cells j := by
  rw [cellAt_set, if_neg h]

/-- A `passStep` leaves every cell a submask of what it was. -/
theorem passStep_submask (cells : Board) (i j : Nat) :
    Submask (cellAt (passStep cells i) j) (cellAt cells j) := by
  unfold passStep
  rw [cellAt_set]
  by_cases hij : i = j
  · subst hij
    by_cases hlen : i < cells.length
    · simp only [if_pos rfl, if_pos hlen]
      exact submask_land_left _ _
    · simp only [if_pos rfl, if_neg hlen]
      exact submask_refl _
  · rw [if_neg hij]
    exact submask_refl _

/-- Folding `passStep` over any index list leaves every cell a submask of
what it was. -/
theorem foldl_passStep_submask (l : List Nat) (start : Board) (j : Nat) :
    Submask (cellAt (l.foldl passStep start) j) (cellAt start j) := by
  induction l generalizing start with
  | nil => exact submask_refl _
  | cons i l ih =>
    rw [List.foldl_cons]
    exact submask_trans (ih (passStep start i)) (passStep_submask start i j)

theorem pass_submask (cells : Board) (j : Nat) :
    Submask (cellAt (pass cells) j) (cellAt cells j) := by
  unfold pass
  exact foldl_passStep_submask _ cells j

theorem foldl_passStep_length (l : List Nat) (start : Board) :
    (l.foldl passStep start).length = start.length := by
  induction l generalizing start with
  | nil => rfl
  | cons i l ih =>
    rw [List.foldl_cons, ih]
    exact List.length_set start i _

theorem pass_length (cells : Board) : (pass cells).length = cells.length :=
  foldl_passStep_length _ cells

/-- Cells whose index is not in the fold's index list are untouched. -/
theorem foldl_passStep_untouched (l : List Nat) (start : Board) (j : Nat)
    (h : ∀ i ∈ l, i ≠ j) :
    cellAt (l.foldl passStep start) j = cellAt start j := by
  induction l generalizing start with
  | nil => rfl
  | cons i l ih =>
    rw [List.foldl_cons, ih _ (fun k hk => h k (List.mem_cons_of_mem i hk))]
    exact cellAt_set_ne start _ (h i (List.mem_cons_self i l))

/-- Two boards of equal length with equal `cellAt` everywhere are equal. -/
theorem board_ext {a b : Board} (hlen : a.length = b.length)
    (h : ∀ j, cellAt a j = cellAt b j) : a = b := by
  apply List.ext_getElem hlen
  intro i h₁ h₂
  have h3 := h i
  rwa [cellAt, cellAt, List.getD_eq_getElem a 0 h₁, List.getD_eq_getElem b 0 h₂] at h3

/-- A changing pass changes some cell of the grid. -/
theorem pass_ne_exists {cells : Board} (h : pass cells ≠ cells) :
    ∃ j, j < NSQ ∧ cellAt (pass cells) j ≠ cellAt cells j := by
  by_contra hc
  push_neg at hc
  apply h
  apply board_ext (pass_length cells)
  intro j
  by_cases hj : j < NSQ
  · exact hc j hj
  · apply foldl_passStep_untouched
    intro i hi
    rw [List.mem_range] at hi
    omega

/-- A pass that changes the board strictly decreases the total value. -/
theorem totalVal_pass_lt (cells : Board) (h : pass cells ≠ cells) :
    totalVal (pass cells) < totalVal cells := by
  have hpt : ∀ j, Submask (cellAt (pass cells) j) (cellAt cells j) := pass_submask cells
  obtain ⟨j, hj, hne⟩ := pass_ne_exists h
  unfold totalVal
  apply Finset.sum_lt_sum
  · intro i _
    exact submask_le (hpt i)
  · exact ⟨j, Finset.mem_range.mpr hj, Nat.lt_of_le_of_ne (submask_le (hpt j)) hne⟩

/-- Structural helper for `propagate`: iterate passes with a recursion
budget. -/
def propagateAux : Nat → Board → Board
  | 0, cells => cells
  | fuel + 1, cells =>
    if pass cells = cells then cells else propagateAux fuel (pass cells)

/-- `propagate` from the source: repeat full passes until a pass changes
nothing (the Rust loop breaks after a pass with `candidates_changed ==
false` and returns the then-unchanged board; when the branch condition
`pass cells = cells` holds, the returned `cells` is exactly that board).
The Rust loop is syntactically unbounded; here the iteration carries the
budget `totalVal cells + 1`, which is always enough because a changing
pass strictly decreases `totalVal` (`totalVal_pass_lt`), so the budget is
never exhausted before the fixed point — `propagateAux_congr` proves any
larger budget yields the same board. -/
def propagate (cells : Board) : Board := propagateAux (totalVal cells + 1) cells

theorem propagateAux_congr :
    ∀ (f₁ f₂ : Nat) (cells : Board), totalVal cells < f₁ → totalVal cells < f₂ →
      propagateAux f₁ cells = propagateAux f₂ cells := by
  intro f₁
  induction f₁ with
  | zero =>
    intro f₂ cells h _
    omega
  | succ f ih =>
    intro f₂ cells h1 h2
    cases f₂ with
    | zero => omega
    | succ g =>
      simp only [propagateAux]
      by_cases hp : pass cells = cells
      · rw [if_pos hp, if_pos hp]
      · rw [if_neg hp, if_neg hp]
        have hlt := totalVal_pass_lt cells hp
        exact ih g (pass cells) (by omega) (by omega)

theorem propagateAux_succ_fixed {cells : Board} (fuel : Nat)
    (h : pass cells = cells) : propagateAux (fuel + 1) cells = cells := by
  simp only [propagateAux]
  rw [if_pos h]

/-- The state folded by `most_promising`'s loop: `(min_len, min_index)`. -/
def mpStep (cells : Board) (acc : Nat × Nat) (i : Nat) : Nat × Nat :=
  if cell_solved cells i then acc
  else if popcount (cellAt cells i) < acc.1 then (popcount (cellAt cells i), i) else acc

/-- `most_promising` from the source: scan all cells with initial state
`(min_len, min_index) = (N, NSQ)`, updating on strictly smaller candidate
counts of unsolved cells; return `none` iff `min_index` was never set. -/
def most_promising (cells : Board) : Option Nat :=
  let r := (List.range NSQ).foldl (mpStep cells) (N, NSQ)
  if r.2 = NSQ then none else some r.2

/-- `solve` from the source, with an explicit recursion-depth fuel (the
Rust recursion is unbounded syntactically; `solveF_fuel_stable` below shows
any fuel above the number of multi-candidate cells — in particular the 82
used by `solve` — computes the same result, so the fuel is not a semantic
restriction).  The candidate loop `for c in 0..N` with its `continue` on
non-candidates and early `return` on success is `List.findSome?`; the Rust
code mutates `newboard.cells[cell]` in place each iteration, which always
overwrites the same position, so each recursive call receives exactly
`newboard.set cell (1 <<< c)`. -/
def solveF : Nat → Board → Option Board
  | 0, _ => none
  | fuel + 1, cells =>
    if solved (propagate cells) then some (propagate cells)
    else if !solvable (propagate cells) then none
    else
      match most_promising (propagate cells) with
      | none => none
      | some cell =>
        (List.range N).findSome? (fun c =>
          if cellAt (propagate cells) cell &&& (1 <<< c) = 0 then none
          else solveF fuel ((propagate cells).set cell (1 <<< c)))

/-- `solve` from the source. -/
def solve (cells : Board) : Option Board := solveF (NSQ + 1) cells

/-- `ParseError`: the two fatal parse failures of `SudokuBoard::from_str`
(the Rust reports them through `error(format!(...))` and exits; the
embedding returns them as values). -/
inductive ParseError where
  | badLength (expected got : Nat)
  | badChar (c : Char)
deriving DecidableEq, Repr

/-- The per-character match of `from_str`: `.` gives `FULL_SET`, a digit
`'1'...'9'` gives the singleton `1 << (d.to_digit(10) - 1)`, anything else
is an invalid-digit error. -/
def charToCell (c : Char) : Option Nat :=
  if c = '.' then some FULL_SET
  else if '1' ≤ c ∧ c ≤ '9' then some (1 <<< (c.toNat - 48 - 1))
  else none

/-- The character-scanning loop of `from_str`. -/
def parseCells : List Char → Except ParseError Board
  | [] => Except.ok []
  | c :: cs =>
    match charToCell c with
    | none => Except.error (ParseError.badChar c)
    | some v =>
      match parseCells cs with
      | Except.error e => Except.error e
      | Except.ok rest => Except.ok (v :: rest)

/-- `from_str` from the source.  The Rust length test `digits.len() != NSQ`
is on the UTF-8 byte length of the string. -/
def from_str (s : String) : Except ParseError Board :=
  if s.utf8ByteSize ≠ NSQ then Except.error (ParseError.badLength NSQ s.utf8ByteSize)
  else parseCells s.data

/-- Structural helper for `get_singleton` (any `fuel ≥ s` computes the
bit length of `s`). -/
def get_singletonAux : Nat → Nat → Nat
  | 0, _ => 0
  | fuel + 1, s => if s = 0 then 0 else get_singletonAux fuel (s / 2) + 1

/-- `get_singleton` from the source: shift right until zero, counting the
shifts (for a singleton bitset `2^k` this is the digit `k+1`). -/
def get_singleton (s : Nat) : Nat := get_singletonAux s s

/-- `to_str` from the source: append the decimal form of the singleton for
solved cells, `"."` otherwise. -/
def to_str (cells : Board) : String :=
  (List.range NSQ).foldl
    (fun output i =>
      if cell_solved cells i then output ++ Nat.repr (get_singleton (cellAt cells i))
      else output ++ ".")
    ""

/-- Number of cells with two or more candidates; the solver's recursion
depth bound. -/
def multiCount (cells : Board) : Nat :=
  ((List.range NSQ).filter (fun i => decide (1 < popcount (cellAt cells i)))).length

/-- Total candidate count of the board (the measure named by the spec:
bounded by 729 and strictly decreasing across changing passes). -/
def totalCard (cells : Board) : Nat := ∑ i ∈ Finset.range NSQ, popcount (cellAt cells i)

/-- The digit shown for a solved cell: `get_singleton` of its bitset. -/
def digit (cells : Board) (i : Nat) : Nat := get_singleton (cellAt cells i)

/-- The nine cell indices of row `r`. -/
def rowCells (r : Nat) : List Nat := (List.range N).map (fun c => N * r + c)

/-- The nine cell indices of column `c`. -/
def colCells (c : Nat) : List Nat := (List.range N).map (fun r => N * r + c)

/-- The nine cell indices of the 3×3 box with box number `b` (boxes
numbered row-major, leader cell `N * (3 * (b / 3)) + 3 * (b % 3)`). -/
def boxCells (b : Nat) : List Nat :=
  (List.range NSQRT).flatMap (fun dr =>
    (List.range NSQRT).map (fun dc =>
      N * (NSQRT * (b / NSQRT) + dr) + (NSQRT * (b % NSQRT) + dc)))

/-- The value `from_str` stores for a valid character. -/
def charVal (c : Char) : Nat :=
  if c = '.' then FULL_SET else 1 <<< (c.toNat - 48 - 1)

/-- The characters accepted by `from_str`. -/
def validChar (c : Char) : Prop := c = '.' ∨ ('1' ≤ c ∧ c ≤ '9')

instance (c : Char) : Decidable (validChar c) := by
  unfold validChar
  infer_instance

/-- Invariant carried through propagation for claim C10: clue cell `i`
still holds the singleton `2 ^ d`, no neighbour of `i` holds that same
singleton, and all cells fit in a `u32`. -/
def ClueInv (cells : Board) (i d : Nat) : Prop :=
  cellAt cells i = 2 ^ d ∧ (∀ j ∈ neighbors_of i, cellAt cells j ≠ 2 ^ d) ∧
    ∀ j, cellAt cells j < 2 ^ 32

/-- The all-blank 81-dot input line. -/
def blankInput : String := String.mk (List.replicate NSQ '.')

/-- The board parsed from `blankInput`: 81 full candidate sets. -/
def blankBoard : Board := List.replicate NSQ FULL_SET

/-- A valid grid with its first cell blanked (the spec's scenario input). -/
def exInput : String :=
  ".34678912672195348198342567859761423426853791713924856961537284287419635345286179"

/-- The completed version of `exInput`. -/
def exSolvedInput : String :=
  "534678912672195348198342567859761423426853791713924856961537284287419635345286179"

/-- The parsed board of `exInput`. -/
def exBoard : Board := exInput.data.map charVal

/-- The parsed board of `exSolvedInput`, also the solver's output on
`exBoard`. -/
def exSolvedBoard : Board := exSolvedInput.data.map charVal

/-- A 3-byte input line (malformed length). -/
def badLenInput : String := "534"

/-- An 81-byte input line whose first character is invalid. -/
def badCharInput : String := String.mk ('x' :: List.replicate 80 '.')

/-! ### Bit-level lemmas -/

theorem popcountAux_congr :
    ∀ (f₁ f₂ n : Nat), n ≤ f₁ → n ≤ f₂ → popcountAux f₁ n = popcountAux f₂ n := by
  intro f₁
  induction f₁ with
  | zero =>
    intro f₂ n h1 _
    have hn : n = 0 := by omega
    subst hn
    cases f₂ with
    | zero => rfl
    | succ g => simp [popcountAux]
  | succ f ih =>
    intro f₂ n h1 h2
    cases f₂ with
    | zero =>
      have hn : n = 0 := by omega
      subst hn
      simp [popcountAux]
    | succ g =>
      simp only [popcountAux]
      by_cases hn : n = 0
      · rw [if_pos hn, if_pos hn]
      · rw [if_neg hn, if_neg hn]
        have hlt : n / 2 < n := Nat.div_lt_self (Nat.pos_of_ne_zero hn) (by decide)
        rw [ih g (n / 2) (by omega) (by omega)]

theorem popcount_zero : popcount 0 = 0 := rfl

theorem popcount_rec (n : Nat) : popcount n = n % 2 + popcount (n / 2) := by
  by_cases h : n = 0
  · subst h
    rfl
  · show popcountAux n n = n % 2 + popcountAux (n / 2) (n / 2)
    cases n with
    | zero => exact absurd rfl h
    | succ m =>
      simp only [popcountAux]
      rw [if_neg h]
      have hle : (m + 1) / 2 ≤ m := by omega
      rw [popcountAux_congr m ((m + 1) / 2) ((m + 1) / 2) hle le_rfl]

theorem popcount_two_pow (k : Nat) : popcount (2 ^ k) = 1 := by
  induction k with
  | zero => rw [pow_zero, popcount_rec]; simp [popcount_zero]
  | succ k ih =>
    rw [popcount_rec, Nat.pow_succ, Nat.mul_mod_left, Nat.mul_div_cancel _ (by decide : 0 < 2)]
    simpa using ih

theorem popcount_eq_zero_iff (n : Nat) : popcount n = 0 ↔ n = 0 := by
  induction n using Nat.strong_induction_on with
  | _ n ih =>
    constructor
    · intro h
      by_contra hn
      rw [popcount_rec] at h
      have h1 : n % 2 = 0 := by omega
      have h2 : popcount (n / 2) = 0 := by omega
      have h4 : n / 2 = 0 :=
        (ih (n / 2) (Nat.div_lt_self (Nat.pos_of_ne_zero hn) (by decide))).mp h2
      omega
    · intro h
      subst h
      exact popcount_zero

theorem popcount_eq_one_iff (n : Nat) : popcount n = 1 ↔ ∃ k, n = 2 ^ k := by
  induction n using Nat.strong_induction_on with
  | _ n ih =>
    constructor
    · intro h
      have hn : n ≠ 0 := by
        rintro rfl
        rw [popcount_zero] at h
        omega
      rw [popcount_rec] at h
      rcases Nat.mod_two_eq_zero_or_one n with h2 | h2
      · have h3 : popcount (n / 2) = 1 := by omega
        obtain ⟨k, hk⟩ :=
          (ih (n / 2) (Nat.div_lt_self (Nat.pos_of_ne_zero hn) (by decide))).mp h3
        exact ⟨k + 1, by rw [Nat.pow_succ]; omega⟩
      · have h3 : popcount (n / 2) = 0 := by omega
        have h4 : n / 2 = 0 := (popcount_eq_zero_iff _).mp h3
        exact ⟨0, by rw [pow_zero]; omega⟩
    · rintro ⟨k, rfl⟩
      exact popcount_two_pow k

theorem land_div_two (a b : Nat) : (a &&& b) / 2 = (a / 2) &&& (b / 2) := by
  apply Nat.eq_of_testBit_eq
  intro i
  rw [Nat.testBit_div_two, Nat.testBit_land, Nat.testBit_land, Nat.testBit_div_two,
    Nat.testBit_div_two]

theorem land_mod_two (a b : Nat) : (a &&& b) % 2 = a % 2 * (b % 2) := by
  have h := Nat.testBit_land a b 0
  rw [Nat.testBit_zero, Nat.testBit_zero, Nat.testBit_zero] at h
  have hiff : (a &&& b) % 2 = 1 ↔ (a % 2 = 1 ∧ b % 2 = 1) := by
    have hd1 : (decide ((a &&& b) % 2 = 1) = true) ↔ ((a &&& b) % 2 = 1) :=
      decide_eq_true_iff
    rw [← hd1, h, Bool.and_eq_true, decide_eq_true_iff, decide_eq_true_iff]
  have hd := Nat.mod_two_eq_zero_or_one (a &&& b)
  rcases Nat.mod_two_eq_zero_or_one a with ha | ha
  · rw [ha]
    have h2 : ¬((a &&& b) % 2 = 1) := fun hx => by
      have h3 := (hiff.mp hx).1
      omega
    omega
  · rcases Nat.mod_two_eq_zero_or_one b with hb | hb
    · rw [ha, hb]
      have h2 : ¬((a &&& b) % 2 = 1) := fun hx => by
        have h3 := (hiff.mp hx).2
        omega
      omega
    · rw [ha, hb]
      have h2 := hiff.mpr ⟨ha, hb⟩
      omega

theorem popcount_land_le (a b : Nat) : popcount (a &&& b) ≤ popcount a := by
  induction a using Nat.strong_induction_on generalizing b with
  | _ a ih =>
    by_cases h : a = 0
    · subst h
      rw [Nat.zero_and, popcount_zero]
    · rw [popcount_rec (a &&& b), popcount_rec a, land_div_two, land_mod_two]
      have h1 : popcount (a / 2 &&& b / 2) ≤ popcount (a / 2) :=
        ih (a / 2) (Nat.div_lt_self (Nat.pos_of_ne_zero h) (by decide)) (b / 2)
      have h2 : a % 2 * (b % 2) ≤ a % 2 := by
        rcases Nat.mod_two_eq_zero_or_one b with hb | hb <;> rw [hb] <;> omega
      omega

theorem popcount_land_lt (a b : Nat) (hne : a &&& b ≠ a) :
    popcount (a &&& b) < popcount a := by
  induction a using Nat.strong_induction_on generalizing b with
  | _ a ih =>
    have ha : a ≠ 0 := by
      rintro rfl
      exact hne (Nat.zero_and b)
    have hd := land_div_two a b
    have hm := land_mod_two a b
    have hsplit : (a / 2) &&& (b / 2) ≠ a / 2 ∨ a % 2 * (b % 2) ≠ a % 2 := by
      by_contra hc
      push_neg at hc
      exact hne (by omega)
    rw [popcount_rec (a &&& b), popcount_rec a, land_div_two, land_mod_two]
    rcases hsplit with h1 | h1
    · have h2 := ih (a / 2) (Nat.div_lt_self (Nat.pos_of_ne_zero ha) (by decide)) (b / 2) h1
      have h3 : a % 2 * (b % 2) ≤ a % 2 := by
        rcases Nat.mod_two_eq_zero_or_one b with hb | hb <;> rw [hb] <;> omega
      omega
    · rcases Nat.mod_two_eq_zero_or_one a with ha2 | ha2 <;>
        rcases Nat.mod_two_eq_zero_or_one b with hb2 | hb2 <;>
          rw [ha2, hb2] at h1 <;> try omega
      · have h3 : popcount (a / 2 &&& b / 2) ≤ popcount (a / 2) := popcount_land_le _ _
        rw [ha2, hb2]
        omega

theorem popcount_le_of_lt_two_pow : ∀ (k n : Nat), n < 2 ^ k → popcount n ≤ k := by
  intro k
  induction k with
  | zero =>
    intro n h
    have : n = 0 := by simpa using h
    simp [this, popcount_zero]
  | succ k ih =>
    intro n h
    rw [popcount_rec]
    have h2 : (2 : Nat) ^ (k + 1) = 2 ^ k * 2 := Nat.pow_succ 2 k
    have h3 : n / 2 < 2 ^ k := by omega
    have := ih (n / 2) h3
    omega

theorem get_singletonAux_congr :
    ∀ (f₁ f₂ n : Nat), n ≤ f₁ → n ≤ f₂ →
      get_singletonAux f₁ n = get_singletonAux f₂ n := by
  intro f₁
  induction f₁ with
  | zero =>
    intro f₂ n h1 _
    have hn : n = 0 := by omega
    subst hn
    cases f₂ with
    | zero => rfl
    | succ g => simp [get_singletonAux]
  | succ f ih =>
    intro f₂ n h1 h2
    cases f₂ with
    | zero =>
      have hn : n = 0 := by omega
      subst hn
      simp [get_singletonAux]
    | succ g =>
      simp only [get_singletonAux]
      by_cases hn : n = 0
      · rw [if_pos hn, if_pos hn]
      · rw [if_neg hn, if_neg hn]
        have hlt : n / 2 < n := Nat.div_lt_self (Nat.pos_of_ne_zero hn) (by decide)
        rw [ih g (n / 2) (by omega) (by omega)]

theorem get_singleton_zero : get_singleton 0 = 0 := rfl

theorem get_singleton_rec (n : Nat) (h : n ≠ 0) :
    get_singleton n = get_singleton (n / 2) + 1 := by
  show get_singletonAux n n = get_singletonAux (n / 2) (n / 2) + 1
  cases n with
  | zero => exact absurd rfl h
  | succ m =>
    simp only [get_singletonAux]
    rw [if_neg h]
    have hle : (m + 1) / 2 ≤ m := by omega
    rw [get_singletonAux_congr m ((m + 1) / 2) ((m + 1) / 2) hle le_rfl]

theorem get_singleton_two_pow (k : Nat) : get_singleton (2 ^ k) = k + 1 := by
  induction k with
  | zero =>
    rw [pow_zero, get_singleton_rec 1 (by decide)]
    rfl
  | succ k ih =>
    rw [get_singleton_rec _ (Nat.two_pow_pos (k + 1)).ne']
    have h2 : (2 : Nat) ^ (k + 1) / 2 = 2 ^ k := by
      rw [Nat.pow_succ]
      exact Nat.mul_div_cancel _ (by decide)
    rw [h2, ih]

theorem testBit_u32not (x i : Nat) :
    (u32not x).testBit i = ((decide (i < 32)).xor (x.testBit i)) := by
  unfold u32not U32_MASK
  rw [Nat.testBit_xor, Nat.testBit_two_pow_sub_one]

theorem land_eq_zero_iff {x y : Nat} :
    x &&& y = 0 ↔ ∀ i, x.testBit i = true → y.testBit i = false := by
  constructor
  · intro h i hx
    have h' := congrArg (fun z => Nat.testBit z i) h
    simp only [Nat.testBit_land, Nat.zero_testBit] at h'
    rw [hx] at h'
    simpa using h'
  · intro h
    apply Nat.eq_of_testBit_eq
    intro i
    rw [Nat.testBit_land, Nat.zero_testBit]
    cases hx : x.testBit i
    · simp
    · simp [h i hx]

theorem lt_two_pow_of_high_bits {n k : Nat} (h : ∀ i, k ≤ i → n.testBit i = false) :
    n < 2 ^ k := by
  have heq : n = n % 2 ^ k := by
    apply Nat.eq_of_testBit_eq
    intro i
    rw [Nat.testBit_mod_two_pow]
    by_cases hi : i < k
    · simp [hi]
    · simp [hi, h i (by omega)]
  rw [heq]
  exact Nat.mod_lt _ (Nat.two_pow_pos k)

theorem land_u32not_self_iff {x y : Nat} (hx : x < 2 ^ 32) (hy : y < 2 ^ 32) :
    x &&& u32not y = x ↔ x &&& y = 0 := by
  have hxb : ∀ i, 32 ≤ i → x.testBit i = false := fun i hi =>
    Nat.testBit_lt_two_pow (lt_of_lt_of_le hx (Nat.pow_le_pow_right (by decide) hi))
  have hyb : ∀ i, 32 ≤ i → y.testBit i = false := fun i hi =>
    Nat.testBit_lt_two_pow (lt_of_lt_of_le hy (Nat.pow_le_pow_right (by decide) hi))
  rw [show (x &&& u32not y = x) = Submask x (u32not y) from rfl, submask_iff_testBit,
    land_eq_zero_iff]
  constructor
  · intro h i hxi
    have h2 := h i hxi
    rw [testBit_u32not] at h2
    by_cases hi : i < 32
    · simp [hi] at h2
      exact h2
    · exact hyb i (by omega)
  · intro h i hxi
    rw [testBit_u32not]
    have hi : i < 32 := by
      by_contra hge
      rw [hxb i (by omega)] at hxi
      cases hxi
    simp [hi, h i hxi]

/-! ### Neighbour geometry -/

theorem mem_rowNeighborList {cell j : Nat} (hc : cell < NSQ) :
    j ∈ rowNeighborList cell ↔ (j < NSQ ∧ row j = row cell) := by
  unfold rowNeighborList
  rw [List.mem_map]
  constructor
  · rintro ⟨i, hi, rfl⟩
    rw [List.mem_range] at hi
    simp only [row, N, NSQRT, NSQ] at *
    omega
  · rintro ⟨hj, hr⟩
    refine ⟨col j, ?_, ?_⟩
    · rw [List.mem_range]
      simp only [col, N, NSQRT]
      omega
    · simp only [row, col, N, NSQRT, NSQ] at *
      omega

theorem mem_colNeighborList {cell j : Nat} :
    j ∈ colNeighborList cell ↔ (j < NSQ ∧ col j = col cell) := by
  unfold colNeighborList
  rw [List.mem_map]
  constructor
  · rintro ⟨i, hi, rfl⟩
    rw [List.mem_range] at hi
    simp only [col, N, NSQRT, NSQ] at *
    omega
  · rintro ⟨hj, hr⟩
    refine ⟨row j, ?_, ?_⟩
    · rw [List.mem_range]
      simp only [row, N, NSQRT, NSQ] at *
      omega
    · simp only [row, col, N, NSQRT, NSQ] at *
      omega

theorem mem_groupNeighborList {cell j : Nat} (hc : cell < NSQ) :
    j ∈ groupNeighborList cell ↔ (j < NSQ ∧ group j = group cell) := by
  unfold groupNeighborList
  rw [List.mem_flatMap]
  constructor
  · rintro ⟨dr, hdr, hj⟩
    rw [List.mem_range] at hdr
    rw [List.mem_map] at hj
    obtain ⟨dc, hdc, rfl⟩ := hj
    rw [List.mem_range] at hdc
    simp only [group, row, col, N, NSQRT, NSQ] at *
    omega
  · rintro ⟨hj, hg⟩
    refine ⟨row j % 3, ?_, ?_⟩
    · rw [List.mem_range]
      simp only [NSQRT]
      omega
    · rw [List.mem_map]
      refine ⟨col j % 3, ?_, ?_⟩
      · rw [List.mem_range]
        simp only [NSQRT]
        omega
      · simp only [group, row, col, N, NSQRT, NSQ] at *
        omega

theorem mem_neighborCandidates {cell j : Nat} (hc : cell < NSQ) :
    j ∈ neighborCandidates cell ↔
      (j < NSQ ∧ (row j = row cell ∨ col j = col cell ∨ group j = group cell)) := by
  unfold neighborCandidates
  rw [List.mem_append, List.mem_append, mem_rowNeighborList hc, mem_colNeighborList,
    mem_groupNeighborList hc]
  tauto

/-- The defining property of `neighbors_of`: `j` is a neighbour of `cell`
iff it is a different cell of the grid sharing a row, column or box. -/
theorem mem_neighbors_of {cell j : Nat} (hc : cell < NSQ) :
    j ∈ neighbors_of cell ↔
      (j < NSQ ∧ j ≠ cell ∧
        (row j = row cell ∨ col j = col cell ∨ group j = group cell)) := by
  unfold neighbors_of
  rw [List.mem_filter, List.mem_range]
  simp only [decide_eq_true_eq]
  rw [mem_neighborCandidates hc]
  tauto

theorem neighbors_of_lt {cell j : Nat} (hc : cell < NSQ) (h : j ∈ neighbors_of cell) :
    j < NSQ := ((mem_neighbors_of hc).mp h).1

theorem neighbors_of_ne {cell j : Nat} (hc : cell < NSQ) (h : j ∈ neighbors_of cell) :
    j ≠ cell := ((mem_neighbors_of hc).mp h).2.1

theorem neighbors_of_symm {c n : Nat} (hc : c < NSQ) (hn : n < NSQ) :
    c ∈ neighbors_of n ↔ n ∈ neighbors_of c := by
  rw [mem_neighbors_of hn, mem_neighbors_of hc]
  simp only [row, col, group, N, NSQRT, NSQ, ne_eq] at *
  omega

theorem neighbors_of_nodup (cell : Nat) : (neighbors_of cell).Nodup :=
  List.Nodup.filter _ (List.nodup_range NSQ)

/-! ### Propagation lemmas -/

theorem testBit_foldl_lor (l : List Nat) (f : Nat → Nat) (acc k : Nat) :
    (l.foldl (fun a n => a ||| f n) acc).testBit k =
      (acc.testBit k || l.any (fun n => (f n).testBit k)) := by
  induction l generalizing acc with
  | nil => simp
  | cons n l ih =>
    rw [List.foldl_cons, ih, List.any_cons, Nat.testBit_lor, Bool.or_assoc]

theorem testBit_non_candidates (cells : Board) (i k : Nat) :
    (non_candidates cells i).testBit k =
      (neighbors_of i).any (fun n => cell_solved cells n && (cellAt cells n).testBit k) := by
  unfold non_candidates
  rw [testBit_foldl_lor]
  simp only [EMPTY_SET, Nat.zero_testBit, Bool.false_or]
  congr 1
  funext n
  by_cases h : cell_solved cells n
  · simp [h]
  · simp [h, Nat.zero_testBit]

/-- Every solved neighbour's candidate set is contained in the
`non_candidates` mask. -/
theorem submask_non_candidates {cells : Board} {i j : Nat} (hmem : j ∈ neighbors_of i)
    (hsolved : cell_solved cells j = true) :
    Submask (cellAt cells j) (non_candidates cells i) := by
  rw [submask_iff_testBit]
  intro k hk
  rw [testBit_non_candidates, List.any_eq_true]
  exact ⟨j, hmem, by rw [hsolved, hk]; rfl⟩

/-- If no solved neighbour's set has bit `k`, neither does the mask. -/
theorem testBit_non_candidates_false {cells : Board} {i : Nat} (k : Nat)
    (h : ∀ j ∈ neighbors_of i, cell_solved cells j = true →
      (cellAt cells j).testBit k = false) :
    (non_candidates cells i).testBit k = false := by
  rw [testBit_non_candidates]
  rw [List.any_eq_false]
  intro n hn
  cases hsol : cell_solved cells n
  · simp
  · simp [h n hn hsol]

theorem non_candidates_lt (cells : Board) (i k : Nat)
    (hk : ∀ j, cellAt cells j < 2 ^ k) :
    non_candidates cells i < 2 ^ k := by
  apply lt_two_pow_of_high_bits
  intro m hm
  apply testBit_non_candidates_false
  intro j _ _
  exact Nat.testBit_lt_two_pow
    (lt_of_lt_of_le (hk j) (Nat.pow_le_pow_right (by decide) hm))

/-- If the whole fold leaves the list unchanged, each single step does. -/
theorem foldl_passStep_eq_self {l : List Nat} {cells : Board}
    (h : l.foldl passStep cells = cells) :
    ∀ k ∈ l, passStep cells k = cells := by
  induction l with
  | nil =>
    intro k hk
    cases hk
  | cons i l ih =>
    rw [List.foldl_cons] at h
    have hlen : (passStep cells i).length = cells.length := List.length_set cells i _
    have hsub1 : ∀ j, Submask (cellAt (passStep cells i) j) (cellAt cells j) :=
      passStep_submask cells i
    have hsub2 : ∀ j, Submask (cellAt cells j) (cellAt (passStep cells i) j) := by
      intro j
      have h2 := foldl_passStep_submask l (passStep cells i) j
      rwa [h] at h2
    have hstep : passStep cells i = cells :=
      board_ext hlen (fun j => submask_antisymm (hsub1 j) (hsub2 j))
    intro k hk
    rcases List.mem_cons.mp hk with rfl | hk'
    · exact hstep
    · exact ih (by rwa [hstep] at h) k hk'

/-- Pointwise reading of a pass fixed point. -/
theorem pass_fixed_cell {cells : Board} (h : pass cells = cells) {i : Nat}
    (hi : i < NSQ) (hlen : i < cells.length) :
    cellAt cells i &&& u32not (non_candidates cells i) = cellAt cells i := by
  have hstep := foldl_passStep_eq_self h i (List.mem_range.mpr hi)
  have h2 := congrArg (fun b => cellAt b i) hstep
  simp only [passStep, cellAt_set, if_pos rfl, hlen, if_pos] at h2
  exact h2

theorem pass_propagateAux :
    ∀ (fuel : Nat) (cells : Board), totalVal cells < fuel →
      pass (propagateAux fuel cells) = propagateAux fuel cells := by
  intro fuel
  induction fuel with
  | zero =>
    intro cells hm
    omega
  | succ f ih =>
    intro cells hm
    simp only [propagateAux]
    by_cases h : pass cells = cells
    · rw [if_pos h]
      exact h
    · rw [if_neg h]
      exact ih (pass cells) (by have := totalVal_pass_lt cells h; omega)

/-- The board returned by `propagate` is a fixed point of a full pass:
the loop always runs until no further removal is possible. -/
theorem pass_propagate (cells : Board) : pass (propagate cells) = propagate cells :=
  pass_propagateAux (totalVal cells + 1) cells (Nat.lt_succ_self _)

theorem propagateAux_submask :
    ∀ (fuel : Nat) (cells : Board) (j : Nat),
      Submask (cellAt (propagateAux fuel cells) j) (cellAt cells j) := by
  intro fuel
  induction fuel with
  | zero =>
    intro cells j
    exact submask_refl _
  | succ f ih =>
    intro cells j
    simp only [propagateAux]
    by_cases h : pass cells = cells
    · rw [if_pos h]
      exact submask_refl _
    · rw [if_neg h]
      exact submask_trans (ih (pass cells) j) (pass_submask cells j)

/-- Propagation only ever shrinks candidate sets. -/
theorem propagate_submask (cells : Board) (j : Nat) :
    Submask (cellAt (propagate cells) j) (cellAt cells j) :=
  propagateAux_submask (totalVal cells + 1) cells j

theorem propagateAux_length :
    ∀ (fuel : Nat) (cells : Board), (propagateAux fuel cells).length = cells.length := by
  intro fuel
  induction fuel with
  | zero =>
    intro cells
    rfl
  | succ f ih =>
    intro cells
    simp only [propagateAux]
    by_cases h : pass cells = cells
    · rw [if_pos h]
    · rw [if_neg h, ih (pass cells)]
      exact pass_length cells

theorem propagate_length (cells : Board) : (propagate cells).length = cells.length :=
  propagateAux_length (totalVal cells + 1) cells

/-- `propagate` is idempotent. -/
theorem propagate_propagate (cells : Board) :
    propagate (propagate cells) = propagate cells :=
  propagateAux_succ_fixed _ (pass_propagate cells)

/-! ### Solver lemmas -/

theorem solved_iff {cells : Board} :
    solved cells = true ↔ ∀ i, i < NSQ → popcount (cellAt cells i) = 1 := by
  unfold solved cell_solved
  rw [List.all_eq_true]
  constructor
  · intro h i hi
    exact beq_iff_eq.mp (h i (List.mem_range.mpr hi))
  · intro h i hi
    exact beq_iff_eq.mpr (h i (List.mem_range.mp hi))

theorem solvable_iff {cells : Board} :
    solvable cells = true ↔ ∀ i, i < NSQ → cellAt cells i ≠ 0 := by
  unfold solvable cell_solvable
  rw [List.all_eq_true]
  constructor
  · intro h i hi
    exact bne_iff_ne.mp (h i (List.mem_range.mpr hi))
  · intro h i hi
    exact bne_iff_ne.mpr (h i (List.mem_range.mp hi))

theorem mp_foldl_inv (cells : Board) (l : List Nat) (acc : Nat × Nat)
    (hl : ∀ i ∈ l, i < NSQ)
    (hacc : acc.2 = NSQ ∨ (acc.2 < NSQ ∧ cell_solved cells acc.2 = false)) :
    (l.foldl (mpStep cells) acc).2 = NSQ ∨
      ((l.foldl (mpStep cells) acc).2 < NSQ ∧
        cell_solved cells (l.foldl (mpStep cells) acc).2 = false) := by
  induction l generalizing acc with
  | nil => exact hacc
  | cons i l ih =>
    rw [List.foldl_cons]
    refine ih (mpStep cells acc i) (fun k hk => hl k (List.mem_cons_of_mem i hk)) ?_
    unfold mpStep
    by_cases h1 : cell_solved cells i = true
    · rw [if_pos h1]
      exact hacc
    · rw [if_neg h1]
      by_cases h2 : popcount (cellAt cells i) < acc.1
      · rw [if_pos h2]
        exact Or.inr ⟨hl i (List.mem_cons_self i l), Bool.not_eq_true _ ▸ h1⟩
      · rw [if_neg h2]
        exact hacc

/-- A cell returned by `most_promising` is a grid cell and is unsolved. -/
theorem most_promising_some {cells : Board} {m : Nat}
    (h : most_promising cells = some m) :
    m < NSQ ∧ cell_solved cells m = false := by
  have hinv := mp_foldl_inv cells (List.range NSQ) (N, NSQ)
    (fun i hi => List.mem_range.mp hi) (Or.inl rfl)
  simp only [most_promising] at h
  by_cases hc : ((List.range NSQ).foldl (mpStep cells) (N, NSQ)).2 = NSQ
  · rw [if_pos hc] at h
    cases h
  · rw [if_neg hc] at h
    injection h with h'
    subst h'
    rcases hinv with h1 | h2
    · exact absurd h1 hc
    · exact h2

theorem countP_le_of_imp (l : List Nat) (p q : Nat → Bool)
    (h : ∀ a ∈ l, p a = true → q a = true) :
    l.countP p ≤ l.countP q := by
  induction l with
  | nil => simp
  | cons a l ih =>
    rw [List.countP_cons, List.countP_cons]
    have h1 := ih (fun b hb hpb => h b (List.mem_cons_of_mem a hb) hpb)
    by_cases hp : p a = true
    · rw [if_pos hp, if_pos (h a (List.mem_cons_self a l) hp)]
      omega
    · rw [if_neg hp]
      have h2 : (if q a = true then 1 else 0) ≥ 0 := Nat.zero_le _
      by_cases hq : q a = true
      · rw [if_pos hq]
        omega
      · rw [if_neg hq]
        omega

theorem countP_lt_of_witness (l : List Nat) (p q : Nat → Bool)
    (h : ∀ a ∈ l, p a = true → q a = true)
    (hw : ∃ a ∈ l, q a = true ∧ p a = false) :
    l.countP p < l.countP q := by
  induction l with
  | nil =>
    obtain ⟨a, ha, _⟩ := hw
    cases ha
  | cons a l ih =>
    rw [List.countP_cons, List.countP_cons]
    obtain ⟨w, hwmem, hwq, hwp⟩ := hw
    rcases List.mem_cons.mp hwmem with rfl | hwmem'
    · have hle := countP_le_of_imp l p q (fun b hb => h b (List.mem_cons_of_mem w hb))
      rw [if_pos hwq, if_neg (by rw [hwp]; exact Bool.false_ne_true)]
      omega
    · have hlt := ih (fun b hb => h b (List.mem_cons_of_mem a hb)) ⟨w, hwmem', hwq, hwp⟩
      have h2 : (if p a = true then 1 else 0) ≤ (if q a = true then 1 else 0) := by
        by_cases hp : p a = true
        · rw [if_pos hp, if_pos (h a (List.mem_cons_self a l) hp)]
        · rw [if_neg hp]
          omega
      omega

theorem multiCount_eq_countP (cells : Board) :
    multiCount cells =
      (List.range NSQ).countP (fun i => decide (1 < popcount (cellAt cells i))) := by
  unfold multiCount
  rw [List.countP_eq_length_filter]

theorem popcount_submask_le {x y : Nat} (h : Submask x y) : popcount x ≤ popcount y := by
  conv_lhs => rw [← h, Nat.land_comm]
  exact popcount_land_le y x

theorem multiCount_mono {A B : Board}
    (h : ∀ j, Submask (cellAt A j) (cellAt B j)) :
    multiCount A ≤ multiCount B := by
  rw [multiCount_eq_countP, multiCount_eq_countP]
  apply countP_le_of_imp
  intro a _ hp
  rw [decide_eq_true_eq] at hp ⊢
  exact lt_of_lt_of_le hp (popcount_submask_le (h a))

theorem multiCount_set_lt {nb : Board} {cell c : Nat}
    (hlen : cell < nb.length) (hcell : cell < NSQ)
    (hmulti : 1 < popcount (cellAt nb cell)) :
    multiCount (nb.set cell (1 <<< c)) < multiCount nb := by
  rw [multiCount_eq_countP, multiCount_eq_countP]
  apply countP_lt_of_witness
  · intro a _ hp
    rw [decide_eq_true_eq] at hp ⊢
    by_cases hac : cell = a
    · subst hac
      rw [cellAt_set, if_pos rfl, if_pos hlen, Nat.one_shiftLeft, popcount_two_pow] at hp
      omega
    · rwa [cellAt_set_ne _ _ hac] at hp
  · refine ⟨cell, List.mem_range.mpr hcell, decide_eq_true hmulti, ?_⟩
    apply decide_eq_false
    rw [cellAt_set, if_pos rfl, if_pos hlen, Nat.one_shiftLeft, popcount_two_pow]
    omega

theorem multiCount_le (cells : Board) : multiCount cells ≤ NSQ := by
  unfold multiCount
  calc ((List.range NSQ).filter _).length
      ≤ (List.range NSQ).length := List.length_filter_le _ _
    _ = NSQ := List.length_range NSQ

theorem submask_two_pow_of_land_ne_zero {x c : Nat} (h : x &&& 2 ^ c ≠ 0) :
    Submask (2 ^ c) x := by
  obtain ⟨i, hi⟩ := Nat.ne_zero_implies_bit_true h
  rw [Nat.testBit_land, Bool.and_eq_true, Nat.testBit_two_pow] at hi
  obtain ⟨hx, hc⟩ := hi
  have hci : c = i := of_decide_eq_true hc
  subst hci
  rw [submask_iff_testBit]
  intro k hk
  rw [Nat.testBit_two_pow] at hk
  have hck : c = k := of_decide_eq_true hk
  subst hck
  exact hx

theorem findSome?_congr {α β : Type} (f g : α → Option β) (l : List α)
    (h : ∀ a ∈ l, f a = g a) : l.findSome? f = l.findSome? g := by
  induction l with
  | nil => rfl
  | cons a l ih =>
    rw [List.findSome?_cons, List.findSome?_cons, h a (List.mem_cons_self a l),
      ih (fun b hb => h b (List.mem_cons_of_mem a hb))]

/-- Any board returned by the solver is solved, is a fixed point of a
pass, has the input's length, and is a cell-wise sub-bitset of the input. -/
theorem solveF_some :
    ∀ (fuel : Nat) (cells s : Board), solveF fuel cells = some s →
      solved s = true ∧ pass s = s ∧ s.length = cells.length ∧
        ∀ j, Submask (cellAt s j) (cellAt cells j) := by
  intro fuel
  induction fuel with
  | zero =>
    intro cells s h
    rw [solveF] at h
    cases h
  | succ fuel ih =>
    intro cells s h
    rw [solveF] at h
    by_cases hs : solved (propagate cells) = true
    · rw [if_pos hs] at h
      injection h with h'
      subst h'
      exact ⟨hs, pass_propagate cells, propagate_length cells, propagate_submask cells⟩
    · rw [if_neg hs] at h
      by_cases hv : (!solvable (propagate cells)) = true
      · rw [if_pos hv] at h
        cases h
      · rw [if_neg hv] at h
        cases hmp : most_promising (propagate cells) with
        | none =>
          simp only [hmp] at h
          cases h
        | some cell =>
          simp only [hmp] at h
          obtain ⟨c, hcmem, hc⟩ := List.exists_of_findSome?_eq_some h
          by_cases hg : cellAt (propagate cells) cell &&& 1 <<< c = 0
          · rw [if_pos hg] at hc
            cases hc
          · rw [if_neg hg] at hc
            obtain ⟨h1, h2, h3, h4⟩ := ih _ _ hc
            refine ⟨h1, h2, ?_, ?_⟩
            · rw [h3, List.length_set, propagate_length]
            · intro j
              refine submask_trans (h4 j) ?_
              rw [cellAt_set]
              by_cases hcj : cell = j
              · subst hcj
                by_cases hl : cell < (propagate cells).length
                · rw [if_pos rfl, if_pos hl]
                  refine submask_trans ?_ (propagate_submask cells cell)
                  rw [Nat.one_shiftLeft]
                  apply submask_two_pow_of_land_ne_zero
                  rw [← Nat.one_shiftLeft]
                  exact hg
                · rw [if_pos rfl, if_neg hl]
                  exact propagate_submask cells cell
              · rw [if_neg hcj]
                exact propagate_submask cells j

/-- One more unit of fuel never changes the result once the fuel exceeds
the number of multi-candidate cells. -/
theorem solveF_fuel_succ :
    ∀ (f : Nat) (cells : Board), cells.length = NSQ → multiCount cells < f →
      solveF (f + 1) cells = solveF f cells := by
  intro f
  induction f with
  | zero =>
    intro cells _ h
    omega
  | succ f ih =>
    intro cells hlen h
    show solveF (f + 1 + 1) cells = solveF (f + 1) cells
    rw [solveF]
    conv_rhs => rw [solveF]
    by_cases hs : solved (propagate cells) = true
    · rw [if_pos hs, if_pos hs]
    · rw [if_neg hs, if_neg hs]
      by_cases hv : (!solvable (propagate cells)) = true
      · rw [if_pos hv, if_pos hv]
      · rw [if_neg hv, if_neg hv]
        cases hmp : most_promising (propagate cells) with
        | none => rfl
        | some cell =>
          apply findSome?_congr
          intro c _
          by_cases hg : cellAt (propagate cells) cell &&& 1 <<< c = 0
          · rw [if_pos hg, if_pos hg]
          · rw [if_neg hg, if_neg hg]
            apply ih
            · rw [List.length_set, propagate_length, hlen]
            · have hcell := most_promising_some hmp
              have hnb_le : multiCount (propagate cells) ≤ multiCount cells :=
                multiCount_mono (propagate_submask cells)
              have hne1 : popcount (cellAt (propagate cells) cell) ≠ 1 := by
                have h2 := hcell.2
                unfold cell_solved at h2
                exact beq_eq_false_iff_ne.mp h2
              have hne0 : cellAt (propagate cells) cell ≠ 0 := by
                have h2 : solvable (propagate cells) = true := by
                  cases hsv : solvable (propagate cells)
                  · rw [hsv] at hv
                    exact absurd rfl hv
                  · rfl
                exact solvable_iff.mp h2 cell hcell.1
              have hne0' : popcount (cellAt (propagate cells) cell) ≠ 0 :=
                fun hq => hne0 ((popcount_eq_zero_iff _).mp hq)
              have hmulti : 1 < popcount (cellAt (propagate cells) cell) := by
                omega
              have hlt : multiCount ((propagate cells).set cell (1 <<< c)) <
                  multiCount (propagate cells) :=
                multiCount_set_lt (by rw [propagate_length, hlen]; exact hcell.1)
                  hcell.1 hmulti
              omega

theorem solveF_stable :
    ∀ (k f : Nat) (cells : Board), cells.length = NSQ → multiCount cells < f →
      solveF (f + k) cells = solveF f cells := by
  intro k
  induction k with
  | zero =>
    intro f cells _ _
    rfl
  | succ k ih =>
    intro f cells hlen h
    have h1 : f + (k + 1) = (f + k) + 1 := by omega
    rw [h1, solveF_fuel_succ (f + k) cells hlen (by omega), ih f cells hlen h]

/-! ### Solved boards are valid grids -/

theorem cellAt_eq_zero_of_ge {cells : Board} {j : Nat} (h : cells.length ≤ j) :
    cellAt cells j = 0 := by
  rw [cellAt, List.getD_eq_getElem?_getD, List.getElem?_eq_none h]
  rfl

theorem popcount_submask_lt {x y : Nat} (h : Submask x y) (hne : x ≠ y) :
    popcount x < popcount y := by
  have h2 : y &&& x ≠ y := by
    intro hyx
    exact hne (submask_antisymm h hyx)
  have h3 := popcount_land_lt y x h2
  rwa [Nat.land_comm, h] at h3

/-- On a solved pass-fixed board, a cell and any of its neighbours hold
disjoint (hence different) singleton bitsets. -/
theorem fixed_solved_disjoint {s : Board} (hpass : pass s = s)
    (hsolved : solved s = true) (hlen : s.length = NSQ)
    (hbound : ∀ j, cellAt s j < 2 ^ 32) :
    ∀ i j, i < NSQ → j ∈ neighbors_of i → cellAt s i &&& cellAt s j = 0 := by
  intro i j hi hj
  have hjlt : j < NSQ := neighbors_of_lt hi hj
  have hfix := pass_fixed_cell hpass hi (by omega)
  have hnc_lt : non_candidates s i < 2 ^ 32 := non_candidates_lt s i 32 hbound
  have hzero : cellAt s i &&& non_candidates s i = 0 :=
    (land_u32not_self_iff (hbound i) hnc_lt).mp hfix
  have hsolv_j : cell_solved s j = true := by
    unfold cell_solved
    exact beq_iff_eq.mpr (solved_iff.mp hsolved j hjlt)
  have hsub : Submask (cellAt s j) (non_candidates s i) :=
    submask_non_candidates hj hsolv_j
  rw [land_eq_zero_iff] at hzero ⊢
  intro k hk
  cases hjk : (cellAt s j).testBit k
  · rfl
  · have h2 := hzero k hk
    rw [submask_iff_testBit.mp hsub k hjk] at h2
    cases h2

theorem fixed_solved_digit_ne {s : Board} (hpass : pass s = s)
    (hsolved : solved s = true) (hlen : s.length = NSQ)
    (hbound : ∀ j, cellAt s j < 2 ^ 32) :
    ∀ i j, i < NSQ → j ∈ neighbors_of i → digit s i ≠ digit s j := by
  intro i j hi hj
  obtain ⟨a, ha⟩ := (popcount_eq_one_iff _).mp (solved_iff.mp hsolved i hi)
  obtain ⟨b, hb⟩ :=
    (popcount_eq_one_iff _).mp (solved_iff.mp hsolved j (neighbors_of_lt hi hj))
  have hz := fixed_solved_disjoint hpass hsolved hlen hbound i j hi hj
  rw [ha, hb] at hz
  have hab : a ≠ b := by
    rintro rfl
    rw [Nat.and_self] at hz
    exact (Nat.two_pow_pos a).ne' hz
  unfold digit
  rw [ha, hb, get_singleton_two_pow, get_singleton_two_pow]
  omega

theorem digit_range {s : Board} (hsolved : solved s = true)
    (hbound : ∀ j, cellAt s j ≤ FULL_SET) {i : Nat} (hi : i < NSQ) :
    1 ≤ digit s i ∧ digit s i ≤ 9 := by
  obtain ⟨a, ha⟩ := (popcount_eq_one_iff _).mp (solved_iff.mp hsolved i hi)
  have h2 : a ≤ 8 := by
    by_contra h3
    have h4 : (2 : Nat) ^ 9 ≤ 2 ^ a := Nat.pow_le_pow_right (by decide) (by omega)
    have h5 := hbound i
    rw [ha] at h5
    unfold FULL_SET at h5
    omega
  unfold digit
  rw [ha, get_singleton_two_pow]
  omega

/-- Each digit occurs exactly once among the cells of a pairwise-neighbour
unit of nine cells of a solved pass-fixed bounded board. -/
theorem unit_count {s : Board} (hpass : pass s = s) (hsolved : solved s = true)
    (hlen : s.length = NSQ) (hbound : ∀ j, cellAt s j ≤ FULL_SET)
    (u : List Nat) (hu_len : u.length = 9) (hu_nodup : u.Nodup)
    (hu_mem : ∀ x ∈ u, x < NSQ)
    (hu_nb : ∀ x ∈ u, ∀ y ∈ u, x ≠ y → y ∈ neighbors_of x)
    {d : Nat} (hd1 : 1 ≤ d) (hd9 : d ≤ 9) :
    (u.map (digit s)).count d = 1 := by
  have hbound32 : ∀ j, cellAt s j < 2 ^ 32 := fun j =>
    lt_of_le_of_lt (hbound j) (by unfold FULL_SET; norm_num)
  have hinj : ∀ x ∈ u, ∀ y ∈ u, digit s x = digit s y → x = y := by
    intro x hx y hy hxy
    by_contra hne
    exact fixed_solved_digit_ne hpass hsolved hlen hbound32 x y (hu_mem x hx)
      (hu_nb x hx y hy hne) hxy
  have hnodup : (u.map (digit s)).Nodup := List.Nodup.map_on hinj hu_nodup
  have hmem_Icc : ∀ z ∈ u.map (digit s), z ∈ Finset.Icc 1 9 := by
    intro z hz
    rw [List.mem_map] at hz
    obtain ⟨x, hx, rfl⟩ := hz
    rw [Finset.mem_Icc]
    exact digit_range hsolved hbound (hu_mem x hx)
  have hcard : (u.map (digit s)).toFinset.card = 9 := by
    rw [List.toFinset_card_of_nodup hnodup, List.length_map, hu_len]
  have hsubset : (u.map (digit s)).toFinset ⊆ Finset.Icc 1 9 := fun z hz =>
    hmem_Icc z (List.mem_toFinset.mp hz)
  have heq : (u.map (digit s)).toFinset = Finset.Icc 1 9 :=
    Finset.eq_of_subset_of_card_le hsubset (by rw [hcard, Nat.card_Icc])
  have hd_mem : d ∈ u.map (digit s) := by
    rw [← List.mem_toFinset, heq, Finset.mem_Icc]
    exact ⟨hd1, hd9⟩
  exact List.count_eq_one_of_mem hnodup hd_mem

theorem rowCells_unit {r : Nat} (hr : r < 9) :
    (rowCells r).length = 9 ∧ (rowCells r).Nodup ∧
      (∀ x ∈ rowCells r, x < NSQ) ∧
      (∀ x ∈ rowCells r, ∀ y ∈ rowCells r, x ≠ y → y ∈ neighbors_of x) := by
  refine ⟨?_, ?_, ?_, ?_⟩
  · simp [rowCells, N, NSQRT]
  · apply List.Nodup.map_on
    · intro x _ y _ h
      omega
    · exact List.nodup_range N
  · intro x hx
    rw [rowCells, List.mem_map] at hx
    obtain ⟨c, hc, rfl⟩ := hx
    rw [List.mem_range] at hc
    simp only [N, NSQRT, NSQ] at *
    omega
  · intro x hx y hy hxy
    rw [rowCells, List.mem_map] at hx hy
    obtain ⟨cx, hcx, rfl⟩ := hx
    obtain ⟨cy, hcy, rfl⟩ := hy
    rw [List.mem_range] at hcx hcy
    rw [mem_neighbors_of (by simp only [N, NSQRT, NSQ] at *; omega)]
    refine ⟨by simp only [N, NSQRT, NSQ] at *; omega, by omega, Or.inl ?_⟩
    simp only [row, N, NSQRT] at *
    omega

theorem colCells_unit {c : Nat} (hc : c < 9) :
    (colCells c).length = 9 ∧ (colCells c).Nodup ∧
      (∀ x ∈ colCells c, x < NSQ) ∧
      (∀ x ∈ colCells c, ∀ y ∈ colCells c, x ≠ y → y ∈ neighbors_of x) := by
  refine ⟨?_, ?_, ?_, ?_⟩
  · simp [colCells, N, NSQRT]
  · apply List.Nodup.map_on
    · intro x _ y _ h
      simp only [N, NSQRT] at h
      omega
    · exact List.nodup_range N
  · intro x hx
    rw [colCells, List.mem_map] at hx
    obtain ⟨rx, hrx, rfl⟩ := hx
    rw [List.mem_range] at hrx
    simp only [N, NSQRT, NSQ] at *
    omega
  · intro x hx y hy hxy
    rw [colCells, List.mem_map] at hx hy
    obtain ⟨rx, hrx, rfl⟩ := hx
    obtain ⟨ry, hry, rfl⟩ := hy
    rw [List.mem_range] at hrx hry
    rw [mem_neighbors_of (by simp only [N, NSQRT, NSQ] at *; omega)]
    refine ⟨by simp only [N, NSQRT, NSQ] at *; omega,
      by simp only [N, NSQRT] at *; omega, Or.inr (Or.inl ?_)⟩
    simp only [col, N, NSQRT] at *
    omega

theorem boxCells_unit {b : Nat} (hb : b < 9) :
    (boxCells b).length = 9 ∧ (boxCells b).Nodup ∧
      (∀ x ∈ boxCells b, x < NSQ) ∧
      (∀ x ∈ boxCells b, ∀ y ∈ boxCells b, x ≠ y → y ∈ neighbors_of x) := by
  have hmem : ∀ x ∈ boxCells b, ∃ dr < 3, ∃ dc < 3,
      x = 9 * (3 * (b / 3) + dr) + (3 * (b % 3) + dc) := by
    intro x hx
    rw [boxCells, List.mem_flatMap] at hx
    obtain ⟨dr, hdr, hx⟩ := hx
    rw [List.mem_range] at hdr
    rw [List.mem_map] at hx
    obtain ⟨dc, hdc, rfl⟩ := hx
    rw [List.mem_range] at hdc
    refine ⟨dr, by simpa [NSQRT] using hdr, dc, by simpa [NSQRT] using hdc, ?_⟩
    simp only [N, NSQRT]
  refine ⟨?_, ?_, ?_, ?_⟩
  · rw [boxCells, List.length_flatMap, show List.range NSQRT = [0, 1, 2] from rfl]
    simp [Function.comp_apply, List.length_map, List.length_range, NSQRT]
  · have h9 : b < 9 := hb
    revert h9
    revert b
    decide
  · intro x hx
    obtain ⟨dr, hdr, dc, hdc, rfl⟩ := hmem x hx
    simp only [NSQ, N, NSQRT]
    omega
  · intro x hx y hy hxy
    obtain ⟨dr, hdr, dc, hdc, hxe⟩ := hmem x hx
    obtain ⟨er, her, ec, hec, hye⟩ := hmem y hy
    subst hxe hye
    rw [mem_neighbors_of (by simp only [NSQ, N, NSQRT]; omega)]
    refine ⟨by simp only [NSQ, N, NSQRT]; omega, by omega, Or.inr (Or.inr ?_)⟩
    simp only [group, row, col, N, NSQRT]
    omega

/-! ### Parsing -/

theorem char_eq_of_toNat {c d : Char} (h : c.toNat = d.toNat) : c = d :=
  Char.ext (UInt32.ext h)

theorem digitChar_cases {c : Char} (h1 : '1' ≤ c) (h2 : c ≤ '9') :
    c = '1' ∨ c = '2' ∨ c = '3' ∨ c = '4' ∨ c = '5' ∨ c = '6' ∨ c = '7' ∨
      c = '8' ∨ c = '9' := by
  have hb1 : 49 ≤ c.toNat := Char.le_def.mp h1
  have hb2 : c.toNat ≤ 57 := Char.le_def.mp h2
  have hc : c.toNat = 49 ∨ c.toNat = 50 ∨ c.toNat = 51 ∨ c.toNat = 52 ∨
      c.toNat = 53 ∨ c.toNat = 54 ∨ c.toNat = 55 ∨ c.toNat = 56 ∨ c.toNat = 57 := by
    omega
  rcases hc with h | h | h | h | h | h | h | h | h
  · exact Or.inl (char_eq_of_toNat h)
  · exact Or.inr (Or.inl (char_eq_of_toNat h))
  · exact Or.inr (Or.inr (Or.inl (char_eq_of_toNat h)))
  · exact Or.inr (Or.inr (Or.inr (Or.inl (char_eq_of_toNat h))))
  · exact Or.inr (Or.inr (Or.inr (Or.inr (Or.inl (char_eq_of_toNat h)))))
  · exact Or.inr (Or.inr (Or.inr (Or.inr (Or.inr (Or.inl (char_eq_of_toNat h))))))
  · exact Or.inr (Or.inr (Or.inr (Or.inr (Or.inr (Or.inr (Or.inl
      (char_eq_of_toNat h)))))))
  · exact Or.inr (Or.inr (Or.inr (Or.inr (Or.inr (Or.inr (Or.inr (Or.inl
      (char_eq_of_toNat h))))))))
  · exact Or.inr (Or.inr (Or.inr (Or.inr (Or.inr (Or.inr (Or.inr (Or.inr
      (char_eq_of_toNat h))))))))

theorem utf8Size_of_validChar {c : Char} (h : validChar c) : c.utf8Size = 1 := by
  rcases h with h | ⟨h1, h2⟩
  · subst h
    rfl
  · rcases digitChar_cases h1 h2 with h | h | h | h | h | h | h | h | h <;>
      subst h <;> rfl

theorem charToCell_valid {c : Char} (h : validChar c) :
    charToCell c = some (charVal c) := by
  unfold charToCell charVal
  rcases h with h | h
  · subst h
    rw [if_pos rfl, if_pos rfl]
  · have hne : c ≠ '.' := by
      rintro rfl
      rcases h with ⟨h1, _⟩
      exact absurd h1 (by decide)
    rw [if_neg hne, if_neg hne, if_pos h]

theorem charToCell_invalid {c : Char} (h : ¬validChar c) : charToCell c = none := by
  unfold charToCell
  unfold validChar at h
  rw [if_neg (fun hc => h (Or.inl hc)), if_neg (fun hc => h (Or.inr hc))]

theorem parseCells_ok (l : List Char) (h : ∀ c ∈ l, validChar c) :
    parseCells l = Except.ok (l.map charVal) := by
  induction l with
  | nil => rfl
  | cons c cs ih =>
    simp only [parseCells, charToCell_valid (h c (List.mem_cons_self c cs)),
      ih (fun b hb => h b (List.mem_cons_of_mem c hb)), List.map_cons]

theorem parseCells_err (l : List Char) (c₀ : Char)
    (h : l.find? (fun c => !(decide (validChar c))) = some c₀) :
    parseCells l = Except.error (ParseError.badChar c₀) := by
  induction l with
  | nil => cases h
  | cons c cs ih =>
    by_cases hv : validChar c
    · have hp : (fun c => !(decide (validChar c))) c = false := by
        simp [hv]
      rw [List.find?_cons_of_neg cs (by simp [hp])] at h
      simp only [parseCells, charToCell_valid hv, ih h]
    · have hp : (fun c => !(decide (validChar c))) c = true := by
        simp [hv]
      rw [List.find?_cons_of_pos cs hp] at h
      injection h with h'
      subst h'
      simp only [parseCells, charToCell_invalid hv]

theorem utf8ByteSize_eq_length {s : String} (h : ∀ c ∈ s.data, validChar c) :
    s.utf8ByteSize = s.data.length := by
  obtain ⟨l⟩ := s
  show String.utf8ByteSize.go l = l.length
  induction l with
  | nil => rfl
  | cons c cs ih =>
    rw [show String.utf8ByteSize.go (c :: cs) =
        String.utf8ByteSize.go cs + c.utf8Size from rfl,
      ih (fun b hb => h b (List.mem_cons_of_mem c hb)),
      utf8Size_of_validChar (h c (List.mem_cons_self c cs)), List.length_cons]

theorem from_str_ok {s : String} (hlen : s.data.length = NSQ)
    (hval : ∀ c ∈ s.data, validChar c) :
    from_str s = Except.ok (s.data.map charVal) := by
  unfold from_str
  have hbytes : s.utf8ByteSize = NSQ := by
    rw [utf8ByteSize_eq_length hval, hlen]
  rw [if_neg (by omega)]
  exact parseCells_ok s.data hval

theorem from_str_badLength {s : String} (h : s.utf8ByteSize ≠ NSQ) :
    from_str s = Except.error (ParseError.badLength NSQ s.utf8ByteSize) := by
  unfold from_str
  rw [if_pos h]

theorem from_str_badChar {s : String} {c₀ : Char} (hbytes : s.utf8ByteSize = NSQ)
    (h : s.data.find? (fun c => !(decide (validChar c))) = some c₀) :
    from_str s = Except.error (ParseError.badChar c₀) := by
  unfold from_str
  rw [if_neg (by omega)]
  exact parseCells_err s.data c₀ h

theorem from_str_ok_inv {s : String} {b : Board} (h : from_str s = Except.ok b) :
    s.data.length = NSQ ∧ (∀ c ∈ s.data, validChar c) ∧ b = s.data.map charVal := by
  unfold from_str at h
  by_cases hb : s.utf8ByteSize ≠ NSQ
  · rw [if_pos hb] at h
    cases h
  · rw [if_neg hb] at h
    push_neg at hb
    have hval : ∀ c ∈ s.data, validChar c := by
      by_contra hc
      push_neg at hc
      obtain ⟨c, hcmem, hcv⟩ := hc
      have hsome : (s.data.find? (fun c => !(decide (validChar c)))).isSome = true :=
        List.find?_isSome.mpr ⟨c, hcmem, by simp [hcv]⟩
      obtain ⟨c₀, hf⟩ := Option.isSome_iff_exists.mp hsome
      rw [parseCells_err s.data c₀ hf] at h
      cases h
    refine ⟨?_, hval, ?_⟩
    · rw [← utf8ByteSize_eq_length hval]
      exact hb
    · rw [parseCells_ok s.data hval] at h
      injection h with h'
      exact h'.symm

/-! ### Fixed solved boards and rendering -/

theorem testBit_two_pow_self (k : Nat) : (2 ^ k).testBit k = true := by
  rw [Nat.testBit_two_pow]
  simp

theorem submask_singleton {x d : Nat} (hsub : Submask x (2 ^ d))
    (hpc : popcount x = 1) : x = 2 ^ d := by
  obtain ⟨e, rfl⟩ := (popcount_eq_one_iff x).mp hpc
  by_cases hed : e = d
  · rw [hed]
  · exfalso
    have h2 := submask_iff_testBit.mp hsub e (testBit_two_pow_self e)
    rw [Nat.testBit_two_pow] at h2
    exact hed (of_decide_eq_true h2).symm

theorem passStep_id {cells : Board} {k : Nat}
    (h : cellAt cells k &&& u32not (non_candidates cells k) = cellAt cells k) :
    passStep cells k = cells := by
  apply board_ext (List.length_set cells k _)
  intro j
  rw [cellAt_set]
  by_cases hkj : k = j
  · subst hkj
    by_cases hl : k < cells.length
    · rw [if_pos rfl, if_pos hl, h]
    · rw [if_pos rfl, if_neg hl]
  · rw [if_neg hkj]

theorem foldl_passStep_id {l : List Nat} {cells : Board}
    (h : ∀ k ∈ l, passStep cells k = cells) :
    l.foldl passStep cells = cells := by
  induction l with
  | nil => rfl
  | cons i l ih =>
    rw [List.foldl_cons, h i (List.mem_cons_self i l)]
    exact ih (fun k hk => h k (List.mem_cons_of_mem i hk))

/-- A board of singleton cells in which neighbours never agree is a fixed
point of a propagation pass. -/
theorem pass_fixed_of_valid {cells : Board} (hlen : cells.length = NSQ)
    (hsing : ∀ i, i < NSQ → ∃ d, d ≤ 8 ∧ cellAt cells i = 2 ^ d)
    (hne : ∀ i j, i < NSQ → j ∈ neighbors_of i → cellAt cells i ≠ cellAt cells j) :
    pass cells = cells := by
  have hbound : ∀ j, cellAt cells j < 2 ^ 32 := by
    intro j
    by_cases hj : j < NSQ
    · obtain ⟨e, he8, he⟩ := hsing j hj
      rw [he]
      calc (2 : Nat) ^ e ≤ 2 ^ 8 := Nat.pow_le_pow_right (by decide) he8
        _ < 2 ^ 32 := by norm_num
    · rw [cellAt_eq_zero_of_ge (by omega)]
      exact Nat.two_pow_pos 32
  apply foldl_passStep_id
  intro k hk
  rw [List.mem_range] at hk
  apply passStep_id
  obtain ⟨d, hd8, hd⟩ := hsing k hk
  rw [land_u32not_self_iff (hbound k) (non_candidates_lt cells k 32 hbound)]
  rw [hd, land_eq_zero_iff]
  intro t ht
  rw [Nat.testBit_two_pow] at ht
  have htd : d = t := of_decide_eq_true ht
  subst htd
  apply testBit_non_candidates_false
  intro j hjmem _
  have hjlt : j < NSQ := neighbors_of_lt hk hjmem
  obtain ⟨e, he8, he⟩ := hsing j hjlt
  rw [he, Nat.testBit_two_pow]
  apply decide_eq_false
  intro hed
  subst hed
  exact hne k j hk hjmem (by rw [hd, he])

theorem propagate_of_fixed {cells : Board} (hpass : pass cells = cells) :
    propagate cells = cells :=
  propagateAux_succ_fixed _ hpass

/-- Base step of the solver: a board whose propagation is solved is
returned immediately. -/
theorem solveF_succ_solved {cells : Board} (fuel : Nat)
    (h : solved (propagate cells) = true) :
    solveF (fuel + 1) cells = some (propagate cells) := by
  rw [solveF]
  rw [if_pos h]

/-- `solve` on an already-solved pass-fixed board returns it unchanged. -/
theorem solve_of_fixed_solved {cells : Board} (hpass : pass cells = cells)
    (hsolved : solved cells = true) :
    solve cells = some cells := by
  have h1 : propagate cells = cells := propagate_of_fixed hpass
  show solveF (NSQ + 1) cells = some cells
  rw [solveF_succ_solved NSQ (by rw [h1]; exact hsolved), h1]

theorem string_mk_data (s : String) : String.mk s.data = s := by
  rcases s with ⟨d⟩
  rfl

theorem foldl_append_chunk (l : List Nat) (g : Nat → String) (a : String) :
    l.foldl (fun acc i => acc ++ g i) a =
      a ++ String.mk (l.flatMap (fun i => (g i).data)) := by
  induction l generalizing a with
  | nil =>
    rw [List.foldl_nil, List.flatMap_nil]
    exact (String.append_empty a).symm
  | cons i l ih =>
    have hmk : ∀ (x y : List Char), (⟨x ++ y⟩ : String) = ⟨x⟩ ++ ⟨y⟩ := fun x y => rfl
    rw [List.foldl_cons, ih, List.flatMap_cons, hmk, ← String.append_assoc,
      string_mk_data]

theorem flatMap_eq_map {α β : Type} (l : List α) (g : α → List β) (f : α → β)
    (h : ∀ a ∈ l, g a = [f a]) : l.flatMap g = l.map f := by
  induction l with
  | nil => rfl
  | cons a l ih =>
    rw [List.flatMap_cons, h a (List.mem_cons_self a l), List.map_cons,
      ih (fun b hb => h b (List.mem_cons_of_mem a hb))]
    rfl

theorem map_getD_range (l : List Char) :
    (List.range l.length).map (fun i => l.getD i ' ') = l := by
  apply List.ext_getElem
  · rw [List.length_map, List.length_range]
  · intro i h1 h2
    rw [List.getElem_map, List.getElem_range, List.getD_eq_getElem l ' ' h2]

/-! ### The clue invariant (claim C10) -/

theorem clue_passStep {cells : Board} {i d k : Nat} (hi : i < NSQ) (hd : d ≤ 8)
    (hk : k < NSQ) (h : ClueInv cells i d) : ClueInv (passStep cells k) i d := by
  obtain ⟨h1, h2, h3⟩ := h
  have hsolved_i : cell_solved cells i = true := by
    unfold cell_solved
    rw [h1, popcount_two_pow]
    rfl
  have hfix_i : cellAt cells i &&& u32not (non_candidates cells i) = cellAt cells i := by
    rw [land_u32not_self_iff (h3 i) (non_candidates_lt cells i 32 h3), h1,
      land_eq_zero_iff]
    intro t ht
    rw [Nat.testBit_two_pow] at ht
    have htd : d = t := of_decide_eq_true ht
    subst htd
    apply testBit_non_candidates_false
    intro j hjmem hjsolved
    have hjlt : j < NSQ := neighbors_of_lt hi hjmem
    obtain ⟨e, he⟩ := (popcount_eq_one_iff _).mp (beq_iff_eq.mp hjsolved)
    rw [he, Nat.testBit_two_pow]
    apply decide_eq_false
    intro hed
    subst hed
    exact h2 j hjmem he
  refine ⟨?_, ?_, ?_⟩
  · by_cases hki : k = i
    · subst hki
      rw [passStep, cellAt_set]
      by_cases hl : k < cells.length
      · rw [if_pos rfl, if_pos hl, hfix_i, h1]
      · rw [if_pos rfl, if_neg hl, h1]
    · rw [passStep, cellAt_set, if_neg hki, h1]
  · intro j hjmem
    by_cases hkj : k = j
    · subst hkj
      rw [passStep, cellAt_set]
      by_cases hl : k < cells.length
      · rw [if_pos rfl, if_pos hl]
        intro hcontra
        have hbit := congrArg (fun z => Nat.testBit z d) hcontra
        simp only [Nat.testBit_land, testBit_two_pow_self] at hbit
        have hsub : Submask (cellAt cells i) (non_candidates cells k) :=
          submask_non_candidates ((neighbors_of_symm hi hk).mpr hjmem) hsolved_i
        have hnc_d : (non_candidates cells k).testBit d = true := by
          apply submask_iff_testBit.mp hsub
          rw [h1]
          exact testBit_two_pow_self d
        rw [testBit_u32not, hnc_d] at hbit
        simp at hbit
        exact absurd hbit.2 (by omega)
      · rw [if_pos rfl, if_neg hl]
        exact h2 k hjmem
    · rw [passStep, cellAt_set, if_neg hkj]
      exact h2 j hjmem
  · intro j
    rw [passStep, cellAt_set]
    by_cases hkj : k = j
    · subst hkj
      by_cases hl : k < cells.length
      · rw [if_pos rfl, if_pos hl]
        exact lt_of_le_of_lt Nat.and_le_left (h3 k)
      · rw [if_pos rfl, if_neg hl]
        exact h3 k
    · rw [if_neg hkj]
      exact h3 j

theorem clue_foldl {cells : Board} {i d : Nat} {l : List Nat} (hi : i < NSQ)
    (hd : d ≤ 8) (hl : ∀ k ∈ l, k < NSQ) (h : ClueInv cells i d) :
    ClueInv (l.foldl passStep cells) i d := by
  induction l generalizing cells with
  | nil => exact h
  | cons k l ih =>
    rw [List.foldl_cons]
    exact ih (fun k' hk' => hl k' (List.mem_cons_of_mem k hk'))
      (clue_passStep hi hd (hl k (List.mem_cons_self k l)) h)

theorem clue_pass {cells : Board} {i d : Nat} (hi : i < NSQ) (hd : d ≤ 8)
    (h : ClueInv cells i d) : ClueInv (pass cells) i d :=
  clue_foldl hi hd (fun _ hk => List.mem_range.mp hk) h

theorem clue_propagateAux :
    ∀ (fuel : Nat) (cells : Board),
      ∀ {i d : Nat}, i < NSQ → d ≤ 8 → ClueInv cells i d →
        ClueInv (propagateAux fuel cells) i d := by
  intro fuel
  induction fuel with
  | zero =>
    intro cells i d hi hd h
    exact h
  | succ f ih =>
    intro cells i d hi hd h
    simp only [propagateAux]
    by_cases hp : pass cells = cells
    · rw [if_pos hp]
      exact h
    · rw [if_neg hp]
      exact ih (pass cells) hi hd (clue_pass hi hd h)

/-- Propagation preserves a consistent clue's singleton exactly. -/
theorem clue_propagate {cells : Board} {i d : Nat} (hi : i < NSQ) (hd : d ≤ 8)
    (h : ClueInv cells i d) : ClueInv (propagate cells) i d :=
  clue_propagateAux (totalVal cells + 1) cells hi hd h

/-! ### Remaining helper lemmas -/

theorem cellAt_map_charVal {s : String} {i : Nat} (hi : i < s.data.length) :
    cellAt (s.data.map charVal) i = charVal (s.data.getD i ' ') := by
  rw [cellAt, List.getD_eq_getElem?_getD, List.getElem?_map,
    List.getElem?_eq_getElem hi, List.getD_eq_getElem s.data ' ' hi]
  rfl

theorem charVal_digit {c : Char} (h1 : '1' ≤ c) (h2 : c ≤ '9') :
    charVal c = 2 ^ (c.toNat - 49) ∧ c.toNat - 49 ≤ 8 ∧ 49 ≤ c.toNat := by
  have hb1 : 49 ≤ c.toNat := Char.le_def.mp h1
  have hb2 : c.toNat ≤ 57 := Char.le_def.mp h2
  have hne : c ≠ '.' := by
    rintro rfl
    exact absurd hb1 (by decide)
  unfold charVal
  rw [if_neg hne, Nat.one_shiftLeft, Nat.sub_sub]
  exact ⟨rfl, by omega, hb1⟩

theorem charVal_le {c : Char} (h : validChar c) : charVal c ≤ FULL_SET := by
  rcases h with h | ⟨h1, h2⟩
  · subst h
    exact le_rfl
  · obtain ⟨hv, hd8, _⟩ := charVal_digit h1 h2
    rw [hv]
    calc (2 : Nat) ^ (c.toNat - 49) ≤ 2 ^ 8 := Nat.pow_le_pow_right (by decide) hd8
      _ ≤ FULL_SET := by unfold FULL_SET; norm_num

theorem repr_digit {c : Char} (h1 : '1' ≤ c) (h2 : c ≤ '9') :
    (Nat.repr (c.toNat - 48)).data = [c] := by
  rcases digitChar_cases h1 h2 with h | h | h | h | h | h | h | h | h <;>
    subst h <;> decide

theorem parseCells_error_inv :
    ∀ (l : List Char) (e : ParseError), parseCells l = Except.error e →
      ∃ c₀, l.find? (fun c => !(decide (validChar c))) = some c₀ ∧
        ¬validChar c₀ ∧ e = ParseError.badChar c₀ := by
  intro l
  induction l with
  | nil =>
    intro e h
    cases h
  | cons c cs ih =>
    intro e h
    by_cases hv : validChar c
    · rw [List.find?_cons_of_neg cs (by simp [hv])]
      cases hcs : parseCells cs with
      | error e' =>
        obtain ⟨c₀, hf, hnv, he⟩ := ih e' hcs
        simp only [parseCells, charToCell_valid hv, hcs] at h
        injection h with h'
        subst h'
        exact ⟨c₀, hf, hnv, he⟩
      | ok rest =>
        simp only [parseCells, charToCell_valid hv, hcs] at h
        cases h
    · refine ⟨c, List.find?_cons_of_pos cs (by simp [hv]), hv, ?_⟩
      simp only [parseCells, charToCell_invalid hv] at h
      injection h with h'
      exact h'.symm

/-! ### Symbolic evaluation of the example boards -/

/-- On a board with no solved cell every `non_candidates` mask is empty. -/
theorem non_candidates_zero_of_no_solved {cells : Board}
    (h : ∀ j, cell_solved cells j = false) (i : Nat) :
    non_candidates cells i = 0 := by
  apply Nat.eq_of_testBit_eq
  intro k
  rw [Nat.zero_testBit]
  apply testBit_non_candidates_false
  intro j _ hsol
  rw [h j] at hsol
  exact Bool.noConfusion hsol

/-- A board with no solved cell is a fixed point of a propagation pass:
nothing can be removed from any cell. -/
theorem pass_id_of_no_solved {cells : Board} (hlen : cells.length = NSQ)
    (hbound : ∀ j, j < NSQ → cellAt cells j < 2 ^ 32)
    (h : ∀ j, j < NSQ → cell_solved cells j = false) :
    pass cells = cells := by
  have h' : ∀ j, cell_solved cells j = false := by
    intro j
    by_cases hj : j < NSQ
    · exact h j hj
    · unfold cell_solved
      rw [cellAt_eq_zero_of_ge (by omega), popcount_zero]
      rfl
  have hbound' : ∀ j, cellAt cells j < 2 ^ 32 := by
    intro j
    by_cases hj : j < NSQ
    · exact hbound j hj
    · rw [cellAt_eq_zero_of_ge (by omega)]
      exact Nat.two_pow_pos 32
  apply foldl_passStep_id
  intro k _
  apply passStep_id
  rw [non_candidates_zero_of_no_solved h' k,
    land_u32not_self_iff (hbound' k) (Nat.two_pow_pos 32)]
  exact Nat.and_zero _

theorem propagate_blank_eq : propagate blankBoard = blankBoard :=
  propagate_of_fixed (pass_id_of_no_solved (by rfl) (by decide) (by decide))

/-- Every grid cell lies in the cell list of its own row. -/
theorem mem_rowCells_self {x : Nat} (hx : x < NSQ) : x ∈ rowCells (row x) := by
  unfold rowCells
  rw [List.mem_map]
  refine ⟨col x, List.mem_range.mpr ?_, ?_⟩
  · simp only [col, N, NSQRT, NSQ] at hx ⊢
    omega
  · simp only [row, col, N, NSQRT, NSQ] at hx ⊢
    omega

/-- Every grid cell lies in the cell list of its own column. -/
theorem mem_colCells_self {x : Nat} (hx : x < NSQ) : x ∈ colCells (col x) := by
  unfold colCells
  rw [List.mem_map]
  refine ⟨row x, List.mem_range.mpr ?_, ?_⟩
  · simp only [row, N, NSQRT, NSQ] at hx ⊢
    omega
  · simp only [row, col, N, NSQRT, NSQ] at hx ⊢
    omega

/-- Every grid cell lies in the cell list of its own box. -/
theorem mem_boxCells_self {x : Nat} (hx : x < NSQ) :
    x ∈ boxCells (NSQRT * (row x / NSQRT) + col x / NSQRT) := by
  unfold boxCells
  rw [List.mem_flatMap]
  refine ⟨row x % NSQRT, List.mem_range.mpr ?_, ?_⟩
  · simp only [NSQRT]
    omega
  · rw [List.mem_map]
    refine ⟨col x % NSQRT, List.mem_range.mpr ?_, ?_⟩
    · simp only [NSQRT]
      omega
    · simp only [row, col, N, NSQRT, NSQ] at hx ⊢
      omega

/-- An 81-digit input with no repeated digit in any row, column or box
parses to an all-singleton board that is a fixed point of a propagation
pass and is solved. -/
theorem digit_grid_solve (s : String) (hlen : s.data.length = NSQ)
    (hdig : ∀ c ∈ s.data, '1' ≤ c ∧ c ≤ '9')
    (hvalid : ∀ u, u < N →
      ((rowCells u).map (fun i => s.data.getD i ' ')).Nodup ∧
      ((colCells u).map (fun i => s.data.getD i ' ')).Nodup ∧
      ((boxCells u).map (fun i => s.data.getD i ' ')).Nodup) :
    pass (s.data.map charVal) = s.data.map charVal ∧
      solved (s.data.map charVal) = true := by
  have hcell : ∀ i, i < NSQ →
      cellAt (s.data.map charVal) i = charVal (s.data.getD i ' ') := by
    intro i hi
    exact cellAt_map_charVal (by omega)
  have hmem : ∀ i, i < NSQ → s.data.getD i ' ' ∈ s.data := by
    intro i hi
    have hi' : i < s.data.length := by omega
    rw [List.getD_eq_getElem s.data ' ' hi']
    exact List.getElem_mem hi'
  have hsing : ∀ i, i < NSQ → ∃ d, d ≤ 8 ∧ cellAt (s.data.map charVal) i = 2 ^ d := by
    intro i hi
    obtain ⟨h1, h2⟩ := hdig _ (hmem i hi)
    obtain ⟨hv, hd8, _⟩ := charVal_digit h1 h2
    exact ⟨_, hd8, by rw [hcell i hi, hv]⟩
  have hchar_ne : ∀ i j, i < NSQ → j ∈ neighbors_of i →
      s.data.getD i ' ' ≠ s.data.getD j ' ' := by
    intro i j hi hj heq
    obtain ⟨hjlt, hjne, hshare⟩ := (mem_neighbors_of hi).mp hj
    rcases hshare with h | h | h
    · have hu : row i < N := by
        simp only [row, N, NSQRT, NSQ] at hi ⊢
        omega
      have hmi : i ∈ rowCells (row i) := mem_rowCells_self hi
      have hmj : j ∈ rowCells (row i) := by
        rw [← h]
        exact mem_rowCells_self hjlt
      exact hjne (List.inj_on_of_nodup_map (hvalid (row i) hu).1 hmj hmi heq.symm)
    · have hu : col i < N := by
        simp only [col, N, NSQRT, NSQ] at hi ⊢
        omega
      have hmi : i ∈ colCells (col i) := mem_colCells_self hi
      have hmj : j ∈ colCells (col i) := by
        rw [← h]
        exact mem_colCells_self hjlt
      exact hjne (List.inj_on_of_nodup_map (hvalid (col i) hu).2.1 hmj hmi heq.symm)
    · have hu : NSQRT * (row i / NSQRT) + col i / NSQRT < N := by
        simp only [row, col, N, NSQRT, NSQ] at hi ⊢
        omega
      have hmi : i ∈ boxCells (NSQRT * (row i / NSQRT) + col i / NSQRT) :=
        mem_boxCells_self hi
      have hmj : j ∈ boxCells (NSQRT * (row i / NSQRT) + col i / NSQRT) := by
        have hmj0 := mem_boxCells_self hjlt
        have hbeq : NSQRT * (row j / NSQRT) + col j / NSQRT =
            NSQRT * (row i / NSQRT) + col i / NSQRT := by
          simp only [group, row, col, N, NSQRT, NSQ] at h ⊢
          omega
        rw [hbeq] at hmj0
        exact hmj0
      exact hjne
        (List.inj_on_of_nodup_map (hvalid _ hu).2.2 hmj hmi heq.symm)
  have hne : ∀ i j, i < NSQ → j ∈ neighbors_of i →
      cellAt (s.data.map charVal) i ≠ cellAt (s.data.map charVal) j := by
    intro i j hi hj
    have hjlt : j < NSQ := neighbors_of_lt hi hj
    rw [hcell i hi, hcell j hjlt]
    intro heq
    apply hchar_ne i j hi hj
    obtain ⟨hi1, hi2⟩ := hdig _ (hmem i hi)
    obtain ⟨hj1, hj2⟩ := hdig _ (hmem j hjlt)
    obtain ⟨hvi, _, h49i⟩ := charVal_digit hi1 hi2
    obtain ⟨hvj, _, h49j⟩ := charVal_digit hj1 hj2
    rw [hvi, hvj] at heq
    have hexp := Nat.pow_right_injective (le_refl 2) heq
    apply char_eq_of_toNat
    omega
  have hblen : (s.data.map charVal).length = NSQ := by rw [List.length_map, hlen]
  refine ⟨pass_fixed_of_valid hblen hsing hne, ?_⟩
  rw [solved_iff]
  intro i hi
  obtain ⟨d, _, hd⟩ := hsing i hi
  rw [hd, popcount_two_pow]

set_option maxHeartbeats 1600000 in
set_option maxRecDepth 8192 in
theorem solve_exSolved_eq : solve exSolvedBoard = some exSolvedBoard := by
  obtain ⟨hpass, hsolved⟩ :=
    digit_grid_solve exSolvedInput (by decide) (by decide) (by decide)
  exact solve_of_fixed_solved hpass hsolved

/-! ### The claims -/

/-- Claim C3: candidate sets only ever shrink.  For every board and every
cell, the cell's candidate set after `propagate` is a sub-bitset of the one
before (so its cardinality never increases across one call), and any solved
board returned by `solve` has, at every cell, a candidate set that is a
sub-bitset of that cell's input set (so every input clue's digit is
preserved in the solution). -/
theorem claim3_candidate_sets_shrink (cells : Board) :
    (∀ i, Submask (cellAt (propagate cells) i) (cellAt cells i) ∧
      popcount (cellAt (propagate cells) i) ≤ popcount (cellAt cells i)) ∧
    ∀ s, solve cells = some s →
      ∀ i, Submask (cellAt s i) (cellAt cells i) := by
  constructor
  · intro i
    have h := propagate_submask cells i
    exact ⟨h, popcount_submask_le h⟩
  · intro s hs i
    exact (solveF_some (NSQ + 1) cells s hs).2.2.2 i

theorem claim3_witness :
    Submask (cellAt (propagate exBoard) 0) (cellAt exBoard 0) ∧
      Submask (cellAt exSolvedBoard 0) (cellAt exSolvedBoard 0) :=
  ⟨((claim3_candidate_sets_shrink exBoard).1 0).1,
    (claim3_candidate_sets_shrink exSolvedBoard).2 exSolvedBoard solve_exSolved_eq 0⟩

/-- Claim C4: `propagate` is idempotent — the cell-by-cell candidate sets
of `propagate (propagate b)` equal those of `propagate b` (indeed the
boards are equal). -/
theorem claim4_propagate_idempotent (cells : Board) :
    propagate (propagate cells) = propagate cells ∧
      ∀ i, cellAt (propagate (propagate cells)) i = cellAt (propagate cells) i :=
  ⟨propagate_propagate cells, fun i => by rw [propagate_propagate cells]⟩

/-- Claim C5: the propagation loop terminates on every board.  The total
candidate-set cardinality over the 81 cells is at most 729, any full pass
that changes the board strictly decreases it, and the loop always reaches
its fixed point: a further pass leaves `propagate`'s result unchanged. -/
theorem claim5_propagation_terminates (cells : Board) (_hlen : cells.length = NSQ)
    (hbound : ∀ i, i < NSQ → cellAt cells i ≤ FULL_SET) :
    totalCard cells ≤ 729 ∧
      (pass cells ≠ cells → totalCard (pass cells) < totalCard cells) ∧
      pass (propagate cells) = propagate cells := by
  refine ⟨?_, ?_, pass_propagate cells⟩
  · unfold totalCard
    calc ∑ i ∈ Finset.range NSQ, popcount (cellAt cells i)
        ≤ ∑ _i ∈ Finset.range NSQ, 9 := by
          apply Finset.sum_le_sum
          intro i hi
          apply popcount_le_of_lt_two_pow 9
          have h2 := hbound i (Finset.mem_range.mp hi)
          unfold FULL_SET at h2
          omega
      _ = 729 := by simp [NSQ, N, NSQRT]
  · intro h
    obtain ⟨j, hj, hne⟩ := pass_ne_exists h
    unfold totalCard
    apply Finset.sum_lt_sum
    · intro i _
      exact popcount_submask_le (pass_submask cells i)
    · exact ⟨j, Finset.mem_range.mpr hj,
        popcount_submask_lt (pass_submask cells j) hne⟩

set_option maxHeartbeats 1000000 in
theorem claim5_witness :
    totalCard exBoard ≤ 729 ∧
      (pass exBoard ≠ exBoard → totalCard (pass exBoard) < totalCard exBoard) ∧
      pass (propagate exBoard) = propagate exBoard :=
  claim5_propagation_terminates exBoard (by rfl) (by decide)

/-- Claim C6: the solver terminates on every board with recursion depth
bounded by 81: the number of multi-candidate cells is at most 81, giving
the solver a recursion budget of 82 more fuel than it can ever consume
(any fuel beyond 81 computes the same result as `solve`), and every
branching step — fixing the selected cell of the propagated board to one
candidate — strictly decreases the number of multi-candidate cells. -/
theorem claim6_solve_terminates (cells : Board) (hlen : cells.length = NSQ) :
    multiCount cells ≤ NSQ ∧
      (∀ f, NSQ < f → solveF f cells = solve cells) ∧
      ∀ cell c, solvable (propagate cells) = true →
        most_promising (propagate cells) = some cell →
        multiCount ((propagate cells).set cell (1 <<< c)) < multiCount cells := by
  refine ⟨multiCount_le cells, ?_, ?_⟩
  · intro f hf
    have hm : multiCount cells < NSQ + 1 := by
      have := multiCount_le cells
      omega
    have h1 : f = (NSQ + 1) + (f - (NSQ + 1)) := by omega
    show solveF f cells = solveF (NSQ + 1) cells
    rw [h1]
    exact solveF_stable (f - (NSQ + 1)) (NSQ + 1) cells hlen hm
  · intro cell c hsv hmp
    have hcell := most_promising_some hmp
    have hne1 : popcount (cellAt (propagate cells) cell) ≠ 1 := by
      have h2 := hcell.2
      unfold cell_solved at h2
      exact beq_eq_false_iff_ne.mp h2
    have hne0 : cellAt (propagate cells) cell ≠ 0 :=
      solvable_iff.mp hsv cell hcell.1
    have hne0' : popcount (cellAt (propagate cells) cell) ≠ 0 :=
      fun hq => hne0 ((popcount_eq_zero_iff _).mp hq)
    have hlt : multiCount ((propagate cells).set cell (1 <<< c)) <
        multiCount (propagate cells) :=
      multiCount_set_lt
        (by rw [propagate_length, hlen]; exact hcell.1) hcell.1 (by omega)
    have hle := multiCount_mono (propagate_submask cells)
    omega

theorem claim6_witness :
    multiCount exBoard ≤ NSQ ∧ solveF 100 exBoard = solve exBoard :=
  ⟨(claim6_solve_terminates exBoard (by rfl)).1,
    (claim6_solve_terminates exBoard (by rfl)).2.1 100 (by decide)⟩

set_option maxHeartbeats 1000000 in
/-- Claim C8: for every cell, the neighbour sequence has exactly 20
entries, all distinct, does not contain the cell itself, and the neighbour
relation is symmetric. -/
theorem claim8_neighbors (c : Nat) (hc : c < NSQ) :
    (neighbors_of c).length = 20 ∧ (neighbors_of c).Nodup ∧
      c ∉ neighbors_of c ∧
      ∀ n, n < NSQ → (c ∈ neighbors_of n ↔ n ∈ neighbors_of c) := by
  refine ⟨?_, neighbors_of_nodup c, ?_, ?_⟩
  · have hall : ∀ x ∈ List.range NSQ, ((neighbors_of x).length == 20) = true := by
      decide
    exact beq_iff_eq.mp (hall c (List.mem_range.mpr hc))
  · intro hmem
    exact (neighbors_of_ne hc hmem) rfl
  · intro n hn
    exact neighbors_of_symm hc hn

theorem claim8_witness :
    (neighbors_of 40).length = 20 ∧ (neighbors_of 40).Nodup ∧
      40 ∉ neighbors_of 40 ∧
      ∀ n, n < NSQ → (40 ∈ neighbors_of n ↔ n ∈ neighbors_of 40) :=
  claim8_neighbors 40 (by decide)

set_option maxHeartbeats 1600000 in
set_option maxRecDepth 8192 in
/-- Claim C1, evaluated at the failing input: on the all-blank puzzle the
propagated board is consistent (no empty candidate set) and not solved,
so the claim requires the unsolved cell of minimum cardinality (cell 0,
nine candidates) to be selected and its candidates branched on; but
`most_promising` starts `min_len` at `N = 9` and only takes a cell with
strictly fewer candidates, so it selects no cell and `solve` returns
`Unsatisfiable` (`none`) immediately, with no candidate ever tried. -/
theorem claim1_blank_board_bug :
    from_str blankInput = Except.ok blankBoard ∧
    solvable (propagate blankBoard) = true ∧
    solved (propagate blankBoard) = false ∧
    most_promising (propagate blankBoard) = none ∧
    solve blankBoard = none := by
  refine ⟨by rfl, ?_, ?_, ?_, ?_⟩
  · rw [propagate_blank_eq]
    decide
  · rw [propagate_blank_eq]
    decide
  · rw [propagate_blank_eq]
    decide
  · show solveF (NSQ + 1) blankBoard = none
    rw [solveF, propagate_blank_eq]
    decide

/-- Claim C2: whenever `solve` returns a board, that board is solved
(every cell a singleton) and every row, column and 3×3 box of it contains
each digit 1–9 exactly once.  The hypotheses delimit the boards this
program ever builds: 81 cells, each a sub-bitset of the 9-bit full set. -/
theorem claim2_solve_sound (cells s : Board) (hlen : cells.length = NSQ)
    (hbound : ∀ i, i < NSQ → cellAt cells i ≤ FULL_SET)
    (h : solve cells = some s) :
    solved s = true ∧
      ∀ d, 1 ≤ d → d ≤ 9 →
        (∀ r, r < 9 → ((rowCells r).map (digit s)).count d = 1) ∧
        (∀ c, c < 9 → ((colCells c).map (digit s)).count d = 1) ∧
        (∀ b, b < 9 → ((boxCells b).map (digit s)).count d = 1) := by
  obtain ⟨hsolved, hpass, hslen, hsub⟩ := solveF_some (NSQ + 1) cells s h
  have hbound' : ∀ j, cellAt cells j ≤ FULL_SET := by
    intro j
    by_cases hj : j < NSQ
    · exact hbound j hj
    · rw [cellAt_eq_zero_of_ge (by omega)]
      exact Nat.zero_le _
  have hsbound : ∀ j, cellAt s j ≤ FULL_SET := fun j =>
    le_trans (submask_le (hsub j)) (hbound' j)
  have hslen' : s.length = NSQ := by rw [hslen, hlen]
  refine ⟨hsolved, ?_⟩
  intro d hd1 hd9
  refine ⟨?_, ?_, ?_⟩
  · intro r hr
    obtain ⟨hL, hN, hM, hB⟩ := rowCells_unit hr
    exact unit_count hpass hsolved hslen' hsbound _ hL hN hM hB hd1 hd9
  · intro c hc
    obtain ⟨hL, hN, hM, hB⟩ := colCells_unit hc
    exact unit_count hpass hsolved hslen' hsbound _ hL hN hM hB hd1 hd9
  · intro b hb
    obtain ⟨hL, hN, hM, hB⟩ := boxCells_unit hb
    exact unit_count hpass hsolved hslen' hsbound _ hL hN hM hB hd1 hd9

set_option maxHeartbeats 1600000 in
theorem claim2_witness :
    solved exSolvedBoard = true ∧
      ((rowCells 0).map (digit exSolvedBoard)).count 5 = 1 := by
  have h := claim2_solve_sound exSolvedBoard exSolvedBoard (by rfl) (by decide)
    solve_exSolved_eq
  exact ⟨h.1, (h.2 5 (by omega) (by omega)).1 0 (by omega)⟩

/-- Claim C7: board construction from text succeeds exactly on inputs of
81 characters drawn from `'.'` and `'1'..'9'` — `'.'` becomes the full
set and a digit the singleton holding it — and fails in exactly two ways:
a wrong (byte) length is reported with expected and actual length, and an
invalid character (the first such) is reported with that character. -/
theorem claim7_from_str (s : String) :
    ((s.data.length = NSQ ∧ ∀ c ∈ s.data, validChar c) →
      from_str s = Except.ok (s.data.map charVal)) ∧
    (∀ b, from_str s = Except.ok b →
      s.data.length = NSQ ∧ (∀ c ∈ s.data, validChar c) ∧ b = s.data.map charVal) ∧
    (charVal '.' = FULL_SET ∧
      ∀ c, '1' ≤ c → c ≤ '9' →
        popcount (charVal c) = 1 ∧ get_singleton (charVal c) = c.toNat - 48) ∧
    (s.utf8ByteSize ≠ NSQ →
      from_str s = Except.error (ParseError.badLength NSQ s.utf8ByteSize)) ∧
    (∀ c₀, s.utf8ByteSize = NSQ →
      s.data.find? (fun c => !(decide (validChar c))) = some c₀ →
      from_str s = Except.error (ParseError.badChar c₀)) ∧
    (∀ e, from_str s = Except.error e →
      (s.utf8ByteSize ≠ NSQ ∧ e = ParseError.badLength NSQ s.utf8ByteSize) ∨
      (s.utf8ByteSize = NSQ ∧ ∃ c₀, ¬validChar c₀ ∧ e = ParseError.badChar c₀)) := by
  refine ⟨?_, ?_, ⟨rfl, ?_⟩, ?_, ?_, ?_⟩
  · rintro ⟨h1, h2⟩
    exact from_str_ok h1 h2
  · intro b hb
    exact from_str_ok_inv hb
  · intro c h1 h2
    obtain ⟨hv, hd8, h49⟩ := charVal_digit h1 h2
    rw [hv, popcount_two_pow, get_singleton_two_pow]
    exact ⟨rfl, by omega⟩
  · exact from_str_badLength
  · intro c₀ h1 h2
    exact from_str_badChar h1 h2
  · intro e he
    by_cases hb : s.utf8ByteSize ≠ NSQ
    · left
      refine ⟨hb, ?_⟩
      rw [from_str_badLength hb] at he
      injection he with he'
      exact he'.symm
    · right
      push_neg at hb
      refine ⟨hb, ?_⟩
      unfold from_str at he
      rw [if_neg (by omega)] at he
      obtain ⟨c₀, _, hnv, he'⟩ := parseCells_error_inv s.data e he
      exact ⟨c₀, hnv, he'⟩

set_option maxHeartbeats 1600000 in
theorem claim7_witness :
    from_str exSolvedInput = Except.ok (exSolvedInput.data.map charVal) ∧
    from_str badLenInput =
      Except.error (ParseError.badLength NSQ badLenInput.utf8ByteSize) ∧
    from_str badCharInput = Except.error (ParseError.badChar 'x') := by
  refine ⟨(claim7_from_str exSolvedInput).1 ⟨by decide, by decide⟩, ?_, ?_⟩
  · exact (claim7_from_str badLenInput).2.2.2.1 (by decide)
  · exact (claim7_from_str badCharInput).2.2.2.2.1 'x' (by decide) (by decide)

/-- Claim C9: an 81-character digit-only input encoding a valid solved
grid (no repeated digit in any row, column or box) parses, solves to the
very same board, and renders back to the original string. -/
theorem claim9_roundtrip (s : String) (hlen : s.data.length = NSQ)
    (hdig : ∀ c ∈ s.data, '1' ≤ c ∧ c ≤ '9')
    (hvalid : ∀ u, u < N →
      ((rowCells u).map (fun i => s.data.getD i ' ')).Nodup ∧
      ((colCells u).map (fun i => s.data.getD i ' ')).Nodup ∧
      ((boxCells u).map (fun i => s.data.getD i ' ')).Nodup) :
    from_str s = Except.ok (s.data.map charVal) ∧
      solve (s.data.map charVal) = some (s.data.map charVal) ∧
      to_str (s.data.map charVal) = s := by
  have hval : ∀ c ∈ s.data, validChar c := fun c hc => Or.inr (hdig c hc)
  have hcell : ∀ i, i < NSQ →
      cellAt (s.data.map charVal) i = charVal (s.data.getD i ' ') := by
    intro i hi
    exact cellAt_map_charVal (by omega)
  have hmem : ∀ i, i < NSQ → s.data.getD i ' ' ∈ s.data := by
    intro i hi
    have hi' : i < s.data.length := by omega
    rw [List.getD_eq_getElem s.data ' ' hi']
    exact List.getElem_mem hi'
  have hsing : ∀ i, i < NSQ → ∃ d, d ≤ 8 ∧ cellAt (s.data.map charVal) i = 2 ^ d := by
    intro i hi
    obtain ⟨h1, h2⟩ := hdig _ (hmem i hi)
    obtain ⟨hv, hd8, _⟩ := charVal_digit h1 h2
    exact ⟨_, hd8, by rw [hcell i hi, hv]⟩
  obtain ⟨hpass, hsolvedb⟩ := digit_grid_solve s hlen hdig hvalid
  refine ⟨from_str_ok hlen hval, solve_of_fixed_solved hpass hsolvedb, ?_⟩
  unfold to_str
  have hfun : (fun (output : String) i =>
      if cell_solved (s.data.map charVal) i then
        output ++ Nat.repr (get_singleton (cellAt (s.data.map charVal) i))
      else output ++ ".") =
      (fun (output : String) i => output ++
        (if cell_solved (s.data.map charVal) i then
          Nat.repr (get_singleton (cellAt (s.data.map charVal) i)) else ".")) := by
    funext o i
    by_cases h : cell_solved (s.data.map charVal) i <;> simp [h]
  rw [hfun, foldl_append_chunk]
  have hempty : ∀ t : String, "" ++ t = t := fun t => rfl
  rw [hempty]
  have hchunks : ∀ i ∈ List.range NSQ,
      (if cell_solved (s.data.map charVal) i then
        Nat.repr (get_singleton (cellAt (s.data.map charVal) i)) else ".").data =
      [s.data.getD i ' '] := by
    intro i hi
    rw [List.mem_range] at hi
    have hsolv_i : cell_solved (s.data.map charVal) i = true := by
      unfold cell_solved
      obtain ⟨d, _, hd⟩ := hsing i hi
      rw [hd, popcount_two_pow]
      rfl
    rw [if_pos hsolv_i]
    obtain ⟨h1, h2⟩ := hdig _ (hmem i hi)
    obtain ⟨hv, hd8, h49⟩ := charVal_digit h1 h2
    rw [hcell i hi, hv, get_singleton_two_pow]
    have he : (s.data.getD i ' ').toNat - 49 + 1 = (s.data.getD i ' ').toNat - 48 := by
      omega
    rw [he]
    exact repr_digit h1 h2
  rw [flatMap_eq_map (List.range NSQ) _ (fun i => s.data.getD i ' ') hchunks]
  have hr := map_getD_range s.data
  rw [hlen] at hr
  rw [hr]

set_option maxHeartbeats 1600000 in
set_option maxRecDepth 8192 in
theorem claim9_witness :
    from_str exSolvedInput = Except.ok exSolvedBoard ∧
      solve exSolvedBoard = some exSolvedBoard ∧
      to_str exSolvedBoard = exSolvedInput :=
  claim9_roundtrip exSolvedInput (by decide) (by decide) (by decide)

/-- Claim C10: a clue cell of a parsed board is a singleton from creation
and, provided no neighbouring clue carries the same digit, propagation
keeps exactly that singleton; any solution returned by the solver also
keeps it. -/
theorem claim10_clue_preserved (s : String) (b : Board) (i : Nat)
    (hparse : from_str s = Except.ok b) (hi : i < NSQ)
    (hd1 : '1' ≤ s.data.getD i ' ') (hd9 : s.data.getD i ' ' ≤ '9')
    (hvalid : ∀ j ∈ neighbors_of i, cellAt b j ≠ cellAt b i) :
    cellAt b i = 2 ^ ((s.data.getD i ' ').toNat - 49) ∧
    popcount (cellAt b i) = 1 ∧
    cellAt (propagate b) i = cellAt b i ∧
    ∀ s', solve b = some s' → cellAt s' i = cellAt b i := by
  obtain ⟨hlen, hval, hb⟩ := from_str_ok_inv hparse
  subst hb
  have hci : cellAt (s.data.map charVal) i = charVal (s.data.getD i ' ') :=
    cellAt_map_charVal (by omega)
  obtain ⟨hv, hd8, h49⟩ := charVal_digit hd1 hd9
  have hcell_i : cellAt (s.data.map charVal) i =
      2 ^ ((s.data.getD i ' ').toNat - 49) := by
    rw [hci, hv]
  have hpc : popcount (cellAt (s.data.map charVal) i) = 1 := by
    rw [hcell_i, popcount_two_pow]
  have h32 : (2 : Nat) ^ 32 = 4294967296 := by norm_num
  have hbound : ∀ j, cellAt (s.data.map charVal) j < 2 ^ 32 := by
    intro j
    by_cases hj : j < NSQ
    · have hj' : j < s.data.length := by omega
      rw [cellAt_map_charVal hj']
      have hmem_j : s.data.getD j ' ' ∈ s.data := by
        rw [List.getD_eq_getElem s.data ' ' hj']
        exact List.getElem_mem hj'
      have hcv := charVal_le (hval _ hmem_j)
      unfold FULL_SET at hcv
      omega
    · rw [cellAt_eq_zero_of_ge (by rw [List.length_map]; omega)]
      exact Nat.two_pow_pos 32
  have hinv : ClueInv (s.data.map charVal) i ((s.data.getD i ' ').toNat - 49) := by
    refine ⟨hcell_i, ?_, hbound⟩
    intro j hj
    rw [← hcell_i]
    exact hvalid j hj
  obtain ⟨hp1, _, _⟩ := clue_propagate hi hd8 hinv
  refine ⟨hcell_i, hpc, by rw [hp1, hcell_i], ?_⟩
  intro s' hs'
  obtain ⟨hsolved', _, _, hsub'⟩ := solveF_some (NSQ + 1) (s.data.map charVal) s' hs'
  have hpc' : popcount (cellAt s' i) = 1 := solved_iff.mp hsolved' i hi
  have hsub_i : Submask (cellAt s' i) (2 ^ ((s.data.getD i ' ').toNat - 49)) := by
    rw [← hcell_i]
    exact hsub' i
  rw [submask_singleton hsub_i hpc', hcell_i]

set_option maxHeartbeats 1600000 in
set_option maxRecDepth 8192 in
theorem claim10_witness :
    cellAt exSolvedBoard 1 = 2 ^ (('3' : Char).toNat - 49) ∧
      popcount (cellAt exSolvedBoard 1) = 1 ∧
      cellAt (propagate exSolvedBoard) 1 = cellAt exSolvedBoard 1 ∧
      cellAt exSolvedBoard 1 = cellAt exSolvedBoard 1 := by
  have h := claim10_clue_preserved exSolvedInput exSolvedBoard 1 (by rfl) (by decide)
    (by decide) (by decide) (by decide)
  exact ⟨h.1, h.2.1, h.2.2.1, h.2.2.2 exSolvedBoard solve_exSolved_eq⟩

end Sudoku
